import Mathlib

/-!
Shallow embedding of the NetFUSES repository (baglab/NetFUSES).

The repository has two parallel implementations of the algorithm:
  * `src/netfuses.py` — module-level functions `fuse` and `collapse_fused_graph`;
  * `src/netfuses/netfuses.py` — class `NetworkFuser` with methods `fuse`
    (reads the never-assigned attribute `self.similarit_func` and builds a
    list of booleans) and `collapse` (guarded by
    `assert all(isinstance(g, nx.Graph) for g in graphs)`).

Modelling conventions:
  * Nodes are opaque hashable identifiers; we embed them directly as `ℕ`.
    (The Python code calls `node2fuse_id.update(**{u: i ...})`, which at
    runtime needs string keys; we model the intended plain dict update,
    treating node identifiers abstractly.)
  * An `nx.Graph` is a node set plus a set of undirected edges (loops
    allowed).  We store an undirected edge as its normalised ordered pair
    `edgeKey u v` (smaller endpoint first).  An `nx.MultiGraph` stores a
    multiset of such pairs.
  * Python `set` iteration order is arbitrary; we fix the ascending order of
    the (ℕ-valued) identifiers via `nodeList`.  Every result proved below is
    independent of that choice.
  * Fallible Python code is embedded in `Except PyErr`; a raised exception
    aborts the call, so intermediate mutations of a to-be-returned fresh
    object are discarded.  (Mutations of a *shared* object — the
    `collapsed=nx.MultiGraph()` default argument — are modelled by passing
    the previous call's result back in explicitly, which is exactly what the
    once-evaluated Python default does.)
-/

/-!  ## Data model  -/

/-- Exceptions the embedded code can raise. -/
inductive PyErr where
  | zeroDivisionError
  | attributeError
  | valueError
  | keyError
  | assertionError
  | typeError
deriving DecidableEq

instance {ε α : Type} [DecidableEq ε] [DecidableEq α] : DecidableEq (Except ε α) :=
  fun x y =>
  match x, y with
  | .ok a, .ok b => decidable_of_iff (a = b) ⟨fun h => by rw [h], Except.ok.inj⟩
  | .error e, .error f => decidable_of_iff (e = f) ⟨fun h => by rw [h], Except.error.inj⟩
  | .ok _, .error _ => .isFalse (fun hc => Except.noConfusion hc)
  | .error _, .ok _ => .isFalse (fun hc => Except.noConfusion hc)

/-- Normalised representation of the undirected edge `{u, v}`. -/
def edgeKey (u v : ℕ) : ℕ × ℕ := if u ≤ v then (u, v) else (v, u)

/-- An `nx.Graph`: a finite node set and a finite set of undirected edges. -/
structure Graph where
  nodes : Finset ℕ
  edges : Finset (ℕ × ℕ)

instance : DecidableEq Graph := fun a b =>
  decidable_of_iff (a.nodes = b.nodes ∧ a.edges = b.edges)
    (by cases a; cases b; simp [Graph.mk.injEq])

/-- An `nx.MultiGraph`: a node set and a multiset of undirected edges. -/
structure MultiGraph where
  nodes : Finset ℕ
  edges : Multiset (ℕ × ℕ)

instance : DecidableEq MultiGraph := fun a b =>
  decidable_of_iff (a.nodes = b.nodes ∧ a.edges = b.edges)
    (by cases a; cases b; simp [MultiGraph.mk.injEq])

/-- The empty multigraph `nx.MultiGraph()`. -/
def emptyMG : MultiGraph := ⟨∅, 0⟩

/-- Python `G.neighbors(n)`: all nodes joined to `n` by an edge.  (In networkx every
edge endpoint is a node of the graph, so filtering over the node set is
exact for graphs built through the API.) -/
def Graph.nbrs (g : Graph) (n : ℕ) : Finset ℕ :=
  g.nodes.filter (fun m => edgeKey n m ∈ g.edges)

/-- Well-formedness enjoyed by every graph built through the networkx API:
edges are stored normalised and their endpoints are nodes of the graph. -/
def Graph.wf (g : Graph) : Prop :=
  ∀ e ∈ g.edges, e.1 ≤ e.2 ∧ e.1 ∈ g.nodes ∧ e.2 ∈ g.nodes

instance (g : Graph) : Decidable g.wf := by
  unfold Graph.wf; infer_instance

/-- Iteration order for a Python set of nodes: ascending.  (Python set order
is arbitrary; all results we prove are order-independent.) -/
def nodeList (s : Finset ℕ) : List ℕ :=
  (List.range (s.sup id + 1)).filter (fun x => decide (x ∈ s))

/-!  ## The fusion stage: `fuse` (`src/netfuses.py`)  -/

/-- Python `union = set().union(*map(set, graphs))`: the vertex universe `V*`. -/
def vertexUniverse (graphs : List Graph) : Finset ℕ :=
  graphs.foldr (fun g s => g.nodes ∪ s) ∅

/-- Python `G = nx.Graph(); G.add_nodes_from(union); G.add_edges_from((u,u) for u in union)`. -/
def selfLoopGraph (V : Finset ℕ) : Graph :=
  ⟨V, V.image (fun u => (u, u))⟩

/-- One iteration of the fuse loop body (after the progress check):
`valid_nodes = union - set([u]); analogs = simfn(u, valid_nodes, t, **kwargs);
G.add_edges_from((u,a) for a in analogs)`.  `add_edges_from` also inserts
endpoints as nodes (`u` itself is already a node of `G`). -/
def addAnalogs (t : ℚ) (simfn : ℕ → Finset ℕ → ℚ → Finset ℕ)
    (V : Finset ℕ) (G : Graph) (u : ℕ) : Graph :=
  let analogs := simfn u (V.erase u) t
  ⟨G.nodes ∪ analogs, G.edges ∪ analogs.image (fun a => edgeKey u a)⟩

/-- The `for i, u in enumerate(list(union), 1):` loop of `fuse`.  When
`verbose` is an integer `v`, each iteration first evaluates `i % v == 0`; for
`v = 0` this raises `ZeroDivisionError` at the first iteration.  The module's
progress `print` uses a well-formed format string, so a triggered print has
no effect on the result. -/
def fuseLoop (t : ℚ) (simfn : ℕ → Finset ℕ → ℚ → Finset ℕ)
    (V : Finset ℕ) (verbose : Option ℤ) :
    List ℕ → Graph → Except PyErr Graph
  | [], G => .ok G
  | u :: rest, G =>
    if verbose = some 0 then .error .zeroDivisionError
    else fuseLoop t simfn V verbose rest (addAnalogs t simfn V G u)

/-- Function `netfuses.fuse(t, simfn, *graphs, verbose=0, **kwargs)` (`src/netfuses.py`).
The Python default for `verbose` is `0`; `verbose = none` models `None`. -/
def fuse (t : ℚ) (simfn : ℕ → Finset ℕ → ℚ → Finset ℕ)
    (graphs : List Graph) (verbose : Option ℤ) : Except PyErr Graph :=
  let V := vertexUniverse graphs
  fuseLoop t simfn V verbose (nodeList V) (selfLoopGraph V)

/-- The pure edge-accumulation underlying a non-crashing run of the loop. -/
def fuseFold (t : ℚ) (simfn : ℕ → Finset ℕ → ℚ → Finset ℕ)
    (V : Finset ℕ) (l : List ℕ) (G : Graph) : Graph :=
  l.foldl (addAnalogs t simfn V) G

/-!  ## The fusion stage: `NetworkFuser.fuse` (`src/netfuses/netfuses.py`)

`NetworkFuser.__init__` assigns `self.similarity_func`, but `_above_threshold`
reads `self.similarit_func`; therefore every evaluation of
`self._above_threshold(u, v)` raises `AttributeError`.  The per-node scan
`analogs = [self._above_threshold(u, v) for v in valid_nodes]` evaluates
`_above_threshold` eagerly on each element of `valid_nodes`, so it raises
unless `valid_nodes` is empty, in which case `analogs = []` and
`G.add_edges_from((u,a) for a in analogs)` adds nothing.  (Were the scan ever
to succeed on a non-empty candidate set it would produce booleans, not
candidate nodes.)  The class's progress print uses the malformed format
string `'\r{0}\r{1:5d/{2:5d}, t={3}'`, whose field 1 has an unterminated
format spec, so an executed print raises `ValueError`. -/

/-- One iteration of the `NetworkFuser.fuse` scan over `valid_nodes`. -/
def nwfScan (V : Finset ℕ) (u : ℕ) (G : Graph) : Except PyErr Graph :=
  if V.erase u = ∅ then .ok G else .error .attributeError

/-- The `for i, u in enumerate(list(union), 1):` loop of `NetworkFuser.fuse`. -/
def nwfFuseLoop (V : Finset ℕ) (verbose : Option ℤ) :
    List ℕ → ℤ → Graph → Except PyErr Graph
  | [], _, G => .ok G
  | u :: rest, i, G =>
    match verbose with
    | some v =>
      if v = 0 then .error .zeroDivisionError
      else if i % v = 0 then .error .valueError
      else
        match nwfScan V u G with
        | .error e => .error e
        | .ok G' => nwfFuseLoop V verbose rest (i + 1) G'
    | none =>
      match nwfScan V u G with
      | .error e => .error e
      | .ok G' => nwfFuseLoop V verbose rest (i + 1) G'

/-- Method `NetworkFuser(simfn, threshold).fuse(*graphs, verbose=0, **kwargs)`.
The threshold and similarity function never influence the result because the
scan raises before a similarity value is ever produced, so they are not
parameters of the model. -/
def networkFuserFuse (graphs : List Graph) (verbose : Option ℤ) :
    Except PyErr Graph :=
  let V := vertexUniverse graphs
  nwfFuseLoop V verbose (nodeList V) 1 (selfLoopGraph V)

/-!  ## Connected components (`nx.connected_component_subgraphs`, then
`sorted(..., key=len)`)  -/

/-- One breadth step: a set together with all neighbours of its members. -/
def expandOnce (g : Graph) (S : Finset ℕ) : Finset ℕ :=
  S ∪ S.biUnion (fun u => g.nbrs u)

/-- All nodes reachable from `u`: `g.nodes.card` breadth steps suffice. -/
def reachSet (g : Graph) (u : ℕ) : Finset ℕ :=
  (expandOnce g)^[g.nodes.card] {u}

/-- Scan the nodes in iteration order; start a new component at every node
not yet contained in one (this is how networkx enumerates connected
components: one BFS per unvisited node). -/
def buildComps (g : Graph) : List ℕ → List (Finset ℕ) → List (Finset ℕ)
  | [], acc => acc
  | u :: rest, acc =>
    if acc.any (fun c => decide (u ∈ c)) then buildComps g rest acc
    else buildComps g rest (acc ++ [reachSet g u])

/-- The connected components of `g` in discovery order. -/
def rawComponents (g : Graph) : List (Finset ℕ) :=
  buildComps g (nodeList g.nodes) []

/-- Python `sorted(nx.connected_component_subgraphs(fuser), key=len)`: components in
ascending order of size. -/
def connComps (g : Graph) : List (Finset ℕ) :=
  (rawComponents g).insertionSort (fun a b => a.card ≤ b.card)

/-!  ## The collapse stage: `collapse_fused_graph` (`src/netfuses.py`)  -/

/-- Python `node2fuse_id.update({u: i for u in component})`. -/
def updComp (f : ℕ → Option ℕ) (C : Finset ℕ) (i : ℕ) : ℕ → Option ℕ :=
  fun n => if n ∈ C then some i else f n

/-- Python `[node2fuse_id[u] for u in neighbors]`: a missing key raises `KeyError`. -/
def idsOf (f : ℕ → Option ℕ) : List ℕ → Except PyErr (List ℕ)
  | [] => .ok []
  | n :: l =>
    match f n with
    | none => .error .keyError
    | some i => (idsOf f l).map (fun is => i :: is)

/-- Python `filter(lambda g: node in g, graphs)`. -/
def graphsContaining (graphs : List Graph) (n : ℕ) : List Graph :=
  graphs.filter (fun g => decide (n ∈ g.nodes))

/-- Python `list(Gi.neighbors(node))` in iteration order. -/
def nodeNbrList (g : Graph) (n : ℕ) : List ℕ :=
  nodeList (g.nbrs n)

/-- The `neighbors` list gathered for one component:
`for node in component: for Gi in filter(...): neighbors.extend(Gi.neighbors(node))`. -/
def componentNeighbors (graphs : List Graph) (C : Finset ℕ) : List ℕ :=
  (nodeList C).flatMap
    (fun n => (graphsContaining graphs n).flatMap (fun g => nodeNbrList g n))

/-- The `self_loops` list gathered for one component:
`self_loops.extend(n for n in Gi.neighbors(node) if n in component)`. -/
def componentSelfLoops (graphs : List Graph) (C : Finset ℕ) : List ℕ :=
  (nodeList C).flatMap
    (fun n => (graphsContaining graphs n).flatMap
      (fun g => (nodeNbrList g n).filter (fun m => decide (m ∈ C))))

/-- Python `collapsed.add_node(i)`. -/
def MultiGraph.addNode (M : MultiGraph) (i : ℕ) : MultiGraph :=
  ⟨insert i M.nodes, M.edges⟩

/-- Python `collapsed.add_edges_from(ps)` on a multigraph: each pair adds its
endpoints as nodes and one more parallel edge. -/
def MultiGraph.addEdges (M : MultiGraph) (ps : List (ℕ × ℕ)) : MultiGraph :=
  ps.foldl (fun m p => ⟨insert p.1 (insert p.2 m.nodes), edgeKey p.1 p.2 ::ₘ m.edges⟩) M

/-- The state threaded through the collapse loop: the multigraph under
construction, `id2fused_set` (an insertion-ordered dict) and `node2fuse_id`. -/
abbrev CState := MultiGraph × List (ℕ × Finset ℕ) × (ℕ → Option ℕ)

/-- The body of `for i, component in enumerate(conn_comps):` in
`collapse_fused_graph`: record the membership maps, add node `i`, gather the
`self_loops` and `neighbors` lists, then add one edge `(i, node2fuse_id[u])`
per collected neighbour (raising `KeyError` for nodes not yet assigned an id)
and one self-loop `(i,i)` per entry of `self_loops`. -/
def collapseStep (graphs : List Graph) (st : CState) (i : ℕ) (C : Finset ℕ) :
    Except PyErr CState :=
  let id2 := st.2.1 ++ [(i, C)]
  let n2f := updComp st.2.2 C i
  let M1 := st.1.addNode i
  let selfLoops := componentSelfLoops graphs C
  let neighbors := componentNeighbors graphs C
  match idsOf n2f neighbors with
  | .error e => .error e
  | .ok ids =>
    let M2 := M1.addEdges (ids.map (fun j => (i, j)))
    let M3 := M2.addEdges (List.replicate selfLoops.length (i, i))
    .ok (M3, id2, n2f)

/-- The `enumerate(conn_comps)` loop. -/
def collapseLoop (graphs : List Graph) :
    List (Finset ℕ) → ℕ → CState → Except PyErr CState
  | [], _, st => .ok st
  | C :: rest, i, st =>
    match collapseStep graphs st i C with
    | .error e => .error e
    | .ok st' => collapseLoop graphs rest (i + 1) st'

/-- Function `netfuses.collapse_fused_graph(fuser, *graphs, collapsed=...)`
(`src/netfuses.py`).  The Python signature defaults `collapsed` to a single
`nx.MultiGraph()` evaluated once at definition time and therefore shared
between calls; the model takes the incoming multigraph explicitly (a caller
relying on the default passes the previous default-call's result). -/
def collapse_fused_graph (fuser : Graph) (graphs : List Graph)
    (collapsed : MultiGraph) : Except PyErr CState :=
  collapseLoop graphs (connComps fuser) 0 (collapsed, [], fun _ => none)

/-!  ## Dynamically-typed wrappers for the collapse entry points  -/

/-- A Python argument that may or may not be a graph.  `nonGraph` stands for
a non-graph, non-container value, for which `node in g` raises `TypeError`. -/
inductive PyObj where
  | graph (g : Graph)
  | nonGraph
deriving DecidableEq

/-- Whether an argument is an `nx.Graph` (what `isinstance(g, nx.Graph)` tests). -/
def PyObj.isGraph : PyObj → Bool
  | .graph _ => true
  | .nonGraph => false

/-- The graphs among a list of arguments. -/
def PyObj.asGraphs (objs : List PyObj) : List Graph :=
  objs.filterMap (fun o => match o with | .graph g => some g | .nonGraph => none)

/-- Entry `collapse_fused_graph` called with arbitrary positional arguments.  The
module function performs no type check; a non-graph argument only blows up
(`TypeError`) when the per-node `filter(lambda g: node in g, graphs)` is
actually evaluated, which happens iff some component is processed. -/
def collapseFusedGraphObjs (fuser : Graph) (objs : List PyObj)
    (collapsed : MultiGraph) : Except PyErr CState :=
  if objs.all PyObj.isGraph then
    collapse_fused_graph fuser (PyObj.asGraphs objs) collapsed
  else if connComps fuser = [] then .ok (collapsed, [], fun _ => none)
  else .error .typeError

/-- Method `NetworkFuser.collapse(fuser, *graphs, collapsed=...)`
(`src/netfuses/netfuses.py`).  It first runs
`assert all(isinstance(g, nx.Graph) for g in graphs)` and then performs the
same computation as the module function, finally returning only the collapsed
graph and `node2fuse_id` (the component→members map is attached to the graph
as node attributes, metadata we do not model). -/
def networkFuserCollapse (fuser : Graph) (objs : List PyObj)
    (collapsed : MultiGraph) : Except PyErr (MultiGraph × (ℕ → Option ℕ)) :=
  if objs.all PyObj.isGraph then
    (collapse_fused_graph fuser (PyObj.asGraphs objs) collapsed).map
      (fun st => (st.1, st.2.2))
  else .error .assertionError

/-!  ## Derived notions used to state the claims  -/

/-- All graphs in a list are API-well-formed. -/
def wfGraphs (graphs : List Graph) : Prop := ∀ g ∈ graphs, g.wf

instance (graphs : List Graph) : Decidable (wfGraphs graphs) := by
  unfold wfGraphs; infer_instance

/-- Every source-graph neighbour of every node of component `C` lies in `C`. -/
def allInternal (graphs : List Graph) (C : Finset ℕ) : Prop :=
  ∀ n ∈ C, ∀ g ∈ graphs, n ∈ g.nodes → g.nbrs n ⊆ C

/-- Number of edges of `g` with two distinct endpoints, both inside `C`. -/
def dCount (g : Graph) (C : Finset ℕ) : ℕ :=
  (g.edges.filter (fun e => e.1 ≠ e.2 ∧ e.1 ∈ C ∧ e.2 ∈ C)).card

/-- Number of self-loop edges of `g` at a node of `C`. -/
def lCount (g : Graph) (C : Finset ℕ) : ℕ :=
  (g.edges.filter (fun e => e.1 = e.2 ∧ e.1 ∈ C)).card

/-- The multiset of self-loop edges a fully-internal collapse run adds for
the components `l` enumerated from index `i`: `2·|neighbors|` parallel copies
of `(i,i)` per component (one batch from the neighbour-mapping pass, one from
the internal tally). -/
def selfLoopMultiset (graphs : List Graph) : List (Finset ℕ) → ℕ → Multiset (ℕ × ℕ)
  | [], _ => 0
  | C :: rest, i =>
    Multiset.replicate (2 * (componentNeighbors graphs C).length) (i, i) +
      selfLoopMultiset graphs rest (i + 1)

/-- The error (if any) of a fuse-style result. -/
def errOf (r : Except PyErr Graph) : Option PyErr :=
  match r with
  | .ok _ => none
  | .error e => some e

/-- The node set of a successful fuse result (empty on error). -/
def okNodes (r : Except PyErr Graph) : Finset ℕ :=
  match r with
  | .ok G => G.nodes
  | .error _ => ∅

/-- The edge set of a successful fuse result (empty on error). -/
def okEdges (r : Except PyErr Graph) : Finset (ℕ × ℕ) :=
  match r with
  | .ok G => G.edges
  | .error _ => ∅

/-- Whether a collapse result is a success. -/
def collapseOk (r : Except PyErr CState) : Bool :=
  match r with
  | .ok _ => true
  | .error _ => false

/-- The collapsed multigraph of a successful collapse result (empty on error). -/
def okCollapsed (r : Except PyErr CState) : MultiGraph :=
  match r with
  | .ok st => st.1
  | .error _ => emptyMG

/-- Multiplicity of the collapsed edge `p` in a collapse result. -/
def okEdgeCount (r : Except PyErr CState) (p : ℕ × ℕ) : ℕ :=
  (okCollapsed r).edges.count p

/-- The `id2fused_set` map of a successful collapse result (empty on error). -/
def okId2 (r : Except PyErr CState) : List (ℕ × Finset ℕ) :=
  match r with
  | .ok st => st.2.1
  | .error _ => []

/-- The `node2fuse_id` map of a successful collapse result. -/
def okN2f (r : Except PyErr CState) : ℕ → Option ℕ :=
  match r with
  | .ok st => st.2.2
  | .error _ => fun _ => none

/-- The error (if any) of a collapse result. -/
def collapseErr (r : Except PyErr CState) : Option PyErr :=
  match r with
  | .ok _ => none
  | .error e => some e

/-!  ## General lemmas about the embedding  -/

theorem edgeKey_comm (u v : ℕ) : edgeKey u v = edgeKey v u := by
  unfold edgeKey
  split_ifs <;> simp [Prod.ext_iff] <;> omega

theorem edgeKey_eq_iff {u v w a : ℕ} :
    edgeKey u v = edgeKey w a ↔ (u = w ∧ v = a) ∨ (u = a ∧ v = w) := by
  unfold edgeKey
  split_ifs <;> simp [Prod.ext_iff] <;> omega

theorem edgeKey_self (u : ℕ) : edgeKey u u = (u, u) := by
  simp [edgeKey]

theorem mem_nodeList {s : Finset ℕ} {x : ℕ} : x ∈ nodeList s ↔ x ∈ s := by
  constructor
  · intro h
    simp only [nodeList, List.mem_filter, decide_eq_true_eq] at h
    exact h.2
  · intro h
    have hx : id x ≤ s.sup id := Finset.le_sup h
    simp only [id_eq] at hx
    simp only [nodeList, List.mem_filter, decide_eq_true_eq, List.mem_range]
    exact ⟨by omega, h⟩

theorem nodup_nodeList (s : Finset ℕ) : (nodeList s).Nodup :=
  (List.nodup_range _).filter _

theorem nodeList_eq_nil {s : Finset ℕ} (h : s = ∅) : nodeList s = [] := by
  subst h
  refine List.eq_nil_iff_forall_not_mem.mpr (fun a ha => ?_)
  exact absurd (mem_nodeList.mp ha) (Finset.not_mem_empty a)

theorem length_nodeList (s : Finset ℕ) : (nodeList s).length = s.card := by
  have h1 : (nodeList s).toFinset = s := by
    ext x
    simp [List.mem_toFinset, mem_nodeList]
  calc (nodeList s).length = (nodeList s).toFinset.card :=
        (List.toFinset_card_of_nodup (nodup_nodeList s)).symm
    _ = s.card := by rw [h1]

theorem fuseLoop_ok_iff (t : ℚ) (simfn : ℕ → Finset ℕ → ℚ → Finset ℕ)
    (V : Finset ℕ) (verbose : Option ℤ) (l : List ℕ) (G : Graph) (G' : Graph) :
    fuseLoop t simfn V verbose l G = .ok G' ↔
      ((l = [] ∨ verbose ≠ some 0) ∧ G' = fuseFold t simfn V l G) := by
  induction l generalizing G with
  | nil =>
    simp only [fuseLoop, fuseFold, List.foldl_nil]
    constructor
    · intro h
      exact ⟨Or.inl (by trivial), (Except.ok.inj h).symm⟩
    · rintro ⟨_, rfl⟩; rfl
  | cons u rest ih =>
    by_cases hv : verbose = some 0
    · subst hv
      simp only [fuseLoop, if_pos rfl, fuseFold]
      constructor
      · intro h; cases h
      · rintro ⟨h | h, _⟩
        · cases h
        · exact absurd rfl h
    · simp only [fuseLoop, if_neg hv, fuseFold, List.foldl_cons]
      rw [ih]
      constructor
      · rintro ⟨_, rfl⟩; exact ⟨Or.inr hv, rfl⟩
      · rintro ⟨_, rfl⟩; exact ⟨Or.inr hv, rfl⟩

theorem mem_edges_fuseFold (t : ℚ) (simfn : ℕ → Finset ℕ → ℚ → Finset ℕ)
    (V : Finset ℕ) (l : List ℕ) (G : Graph) (e : ℕ × ℕ) :
    e ∈ (fuseFold t simfn V l G).edges ↔
      e ∈ G.edges ∨ ∃ u ∈ l, ∃ a ∈ simfn u (V.erase u) t, e = edgeKey u a := by
  induction l generalizing G with
  | nil => simp [fuseFold]
  | cons u rest ih =>
    simp only [fuseFold, List.foldl_cons] at *
    rw [ih]
    simp only [addAnalogs, Finset.mem_union, Finset.mem_image, List.mem_cons]
    constructor
    · rintro (⟨h | ⟨a, ha, rfl⟩⟩ | ⟨w, hw, a, ha, rfl⟩)
      · exact Or.inl h
      · exact Or.inr ⟨u, Or.inl rfl, a, ha, rfl⟩
      · exact Or.inr ⟨w, Or.inr hw, a, ha, rfl⟩
    · rintro (h | ⟨w, hw | hw, a, ha, rfl⟩)
      · exact Or.inl (Or.inl h)
      · exact Or.inl (Or.inr ⟨a, by subst hw; exact ⟨ha, rfl⟩⟩)
      · exact Or.inr ⟨w, hw, a, ha, rfl⟩

theorem nodes_fuseFold (t : ℚ) (simfn : ℕ → Finset ℕ → ℚ → Finset ℕ)
    (V : Finset ℕ) (l : List ℕ) (G : Graph) :
    (fuseFold t simfn V l G).nodes =
      G.nodes ∪ l.foldr (fun u s => simfn u (V.erase u) t ∪ s) ∅ := by
  induction l generalizing G with
  | nil => simp [fuseFold]
  | cons u rest ih =>
    simp only [fuseFold, List.foldl_cons, List.foldr_cons] at *
    rw [ih]
    simp only [addAnalogs]
    ext x
    simp only [Finset.mem_union]
    tauto
theorem edgeKey_eq_diag {u v w : ℕ} : edgeKey u v = (w, w) ↔ u = w ∧ v = w := by
  unfold edgeKey
  split_ifs <;> simp [Prod.ext_iff] <;> omega

theorem mem_edges_selfLoopGraph {V : Finset ℕ} {e : ℕ × ℕ} :
    e ∈ (selfLoopGraph V).edges ↔ ∃ u ∈ V, e = (u, u) := by
  simp only [selfLoopGraph, Finset.mem_image]
  constructor
  · rintro ⟨u, hu, rfl⟩; exact ⟨u, hu, rfl⟩
  · rintro ⟨u, hu, rfl⟩; exact ⟨u, hu, rfl⟩

theorem fuse_ok_iff (t : ℚ) (simfn : ℕ → Finset ℕ → ℚ → Finset ℕ)
    (graphs : List Graph) (verbose : Option ℤ) (G' : Graph) :
    fuse t simfn graphs verbose = .ok G' ↔
      ((nodeList (vertexUniverse graphs) = [] ∨ verbose ≠ some 0) ∧
        G' = fuseFold t simfn (vertexUniverse graphs)
          (nodeList (vertexUniverse graphs)) (selfLoopGraph (vertexUniverse graphs))) := by
  unfold fuse
  exact fuseLoop_ok_iff t simfn _ verbose _ _ G'

theorem fuseLoop_verbose_eq (t : ℚ) (simfn : ℕ → Finset ℕ → ℚ → Finset ℕ)
    (V : Finset ℕ) (verbose : Option ℤ) (hv : verbose ≠ some 0)
    (l : List ℕ) (G : Graph) :
    fuseLoop t simfn V verbose l G = fuseLoop t simfn V none l G := by
  induction l generalizing G with
  | nil => rfl
  | cons u rest ih =>
    simp only [fuseLoop, if_neg hv, if_neg (by simp : (none : Option ℤ) ≠ some 0)]
    exact ih _


/-!  ## Claim C1: fused edges are exactly the oracle-reported analog pairs  -/

/-- C1.  For every call to `fuse` and any two distinct nodes `u`, `v` of the
vertex universe `V*`, the returned fused graph contains edge `(u,v)` iff the
similarity oracle, invoked with `u` as source and `V* \ {u}` as candidate set
at the given threshold, reports `v` as an analog of `u`, or symmetrically the
oracle invoked from `v`'s side reports `u`. -/
theorem c1_fuse_edge_iff_oracle (t : ℚ) (simfn : ℕ → Finset ℕ → ℚ → Finset ℕ)
    (graphs : List Graph) (verbose : Option ℤ) (G : Graph) (u v : ℕ)
    (hok : fuse t simfn graphs verbose = .ok G)
    (hu : u ∈ vertexUniverse graphs) (hv : v ∈ vertexUniverse graphs)
    (huv : u ≠ v) :
    edgeKey u v ∈ G.edges ↔
      v ∈ simfn u ((vertexUniverse graphs).erase u) t ∨
      u ∈ simfn v ((vertexUniverse graphs).erase v) t := by
  obtain ⟨-, rfl⟩ := (fuse_ok_iff t simfn graphs verbose G).mp hok
  rw [mem_edges_fuseFold]
  constructor
  · rintro (hself | ⟨w, hw, a, ha, hkey⟩)
    · obtain ⟨x, -, hx⟩ := mem_edges_selfLoopGraph.mp hself
      exact absurd (edgeKey_eq_diag.mp hx) (fun ⟨h1, h2⟩ => huv (h1.trans h2.symm))
    · rcases edgeKey_eq_iff.mp hkey with ⟨rfl, rfl⟩ | ⟨rfl, rfl⟩
      · exact Or.inl ha
      · exact Or.inr ha
  · rintro (ha | ha)
    · exact Or.inr ⟨u, mem_nodeList.mpr hu, v, ha, rfl⟩
    · exact Or.inr ⟨v, mem_nodeList.mpr hv, u, ha, edgeKey_comm u v⟩

/-- Concrete instantiation of `c1_fuse_edge_iff_oracle`: two nodes `1`, `2`,
an oracle that reports every candidate, `verbose = None`. -/
theorem c1_fuse_edge_iff_oracle_witness :
    2 ∈ (vertexUniverse [⟨{1, 2}, ∅⟩]).erase 1 ∨
      1 ∈ (vertexUniverse [⟨{1, 2}, ∅⟩]).erase 2 :=
  (c1_fuse_edge_iff_oracle 0 (fun _ V _ => V) [⟨{1, 2}, ∅⟩] none
      (fuseFold 0 (fun _ V _ => V) (vertexUniverse [⟨{1, 2}, ∅⟩])
        (nodeList (vertexUniverse [⟨{1, 2}, ∅⟩]))
        (selfLoopGraph (vertexUniverse [⟨{1, 2}, ∅⟩]))) 1 2
      ((fuse_ok_iff 0 (fun _ V _ => V) [⟨{1, 2}, ∅⟩] none _).mpr
        ⟨Or.inr (by decide), rfl⟩)
      (by decide) (by decide) (by decide)).mp (by decide)

/-!  ## Claim C7: self-loop completeness  -/

theorem analogUnion_subset (t : ℚ) (simfn : ℕ → Finset ℕ → ℚ → Finset ℕ)
    (V : Finset ℕ) (l : List ℕ)
    (hconf : ∀ w, simfn w (V.erase w) t ⊆ V) :
    l.foldr (fun u s => simfn u (V.erase u) t ∪ s) ∅ ⊆ V := by
  induction l with
  | nil => simp
  | cons u rest ih =>
    simpa using Finset.union_subset (hconf u) ih

/-- C7 (amended).  Every node of the vertex universe `V*` carries a self-loop
in any graph returned by `fuse`, for all thresholds, all `verbose` values and
all oracle behaviours; and whenever the oracle honours its contract of
returning only members of the candidate set, *every* node of the returned
graph carries a self-loop.  (A non-conforming oracle can inject nodes outside
`V*` into the graph, and those carry no self-loop — see the counterexample.) -/
theorem c7_selfloop_completeness (t : ℚ) (simfn : ℕ → Finset ℕ → ℚ → Finset ℕ)
    (graphs : List Graph) (verbose : Option ℤ) (G : Graph)
    (hok : fuse t simfn graphs verbose = .ok G) :
    (∀ u ∈ vertexUniverse graphs, edgeKey u u ∈ G.edges) ∧
      ((∀ w, simfn w ((vertexUniverse graphs).erase w) t ⊆
          (vertexUniverse graphs).erase w) →
        ∀ u ∈ G.nodes, edgeKey u u ∈ G.edges) := by
  obtain ⟨-, rfl⟩ := (fuse_ok_iff t simfn graphs verbose G).mp hok
  have base : ∀ u ∈ vertexUniverse graphs,
      edgeKey u u ∈ (fuseFold t simfn (vertexUniverse graphs)
        (nodeList (vertexUniverse graphs))
        (selfLoopGraph (vertexUniverse graphs))).edges := by
    intro u hu
    rw [mem_edges_fuseFold]
    exact Or.inl (mem_edges_selfLoopGraph.mpr ⟨u, hu, edgeKey_self u⟩)
  refine ⟨base, fun hconf u hu => ?_⟩
  rw [nodes_fuseFold] at hu
  have hconf' : ∀ w, simfn w ((vertexUniverse graphs).erase w) t ⊆ vertexUniverse graphs :=
    fun w => (hconf w).trans (Finset.erase_subset w _)
  rcases Finset.mem_union.mp hu with hu | hu
  · exact base u (by simpa [selfLoopGraph] using hu)
  · exact base u (analogUnion_subset t simfn _ _ hconf' hu)

/-- C7 counterexample to the claim as stated: with the non-conforming oracle
that always reports node `5`, the call returns a graph containing node `5`
without a self-loop. -/
theorem c7_counterexample :
    errOf (fuse 0 (fun _ _ _ => ({5} : Finset ℕ)) [⟨{0}, {(0, 0)}⟩] none) = none ∧
      5 ∈ okNodes (fuse 0 (fun _ _ _ => ({5} : Finset ℕ)) [⟨{0}, {(0, 0)}⟩] none) ∧
      edgeKey 5 5 ∉ okEdges (fuse 0 (fun _ _ _ => ({5} : Finset ℕ)) [⟨{0}, {(0, 0)}⟩] none) := by
  decide

/-- Concrete instantiation of `c7_selfloop_completeness`. -/
theorem c7_selfloop_completeness_witness :
    edgeKey 1 1 ∈ (fuseFold 0 (fun _ V _ => V) (vertexUniverse [⟨{1, 2}, ∅⟩])
      (nodeList (vertexUniverse [⟨{1, 2}, ∅⟩]))
      (selfLoopGraph (vertexUniverse [⟨{1, 2}, ∅⟩]))).edges :=
  (c7_selfloop_completeness 0 (fun _ V _ => V) [⟨{1, 2}, ∅⟩] none _
      ((fuse_ok_iff 0 (fun _ V _ => V) [⟨{1, 2}, ∅⟩] none _).mpr
        ⟨Or.inr (by decide), rfl⟩)).1 1 (by decide)

/-!  ## Claim C9: degenerate input  -/

/-- C9.  Zero input graphs, or input graphs with an empty vertex universe,
are not an error: both `fuse` and `NetworkFuser.fuse` return an empty graph,
for every threshold, oracle and `verbose` value (including the default `0`:
the crashing progress check sits inside the per-node loop, which never runs). -/
theorem c9_degenerate_input (t : ℚ) (simfn : ℕ → Finset ℕ → ℚ → Finset ℕ)
    (verbose : Option ℤ) (graphs : List Graph)
    (h : vertexUniverse graphs = ∅) :
    fuse t simfn graphs verbose = .ok ⟨∅, ∅⟩ ∧
      networkFuserFuse graphs verbose = .ok ⟨∅, ∅⟩ := by
  have hl : nodeList (vertexUniverse graphs) = [] := nodeList_eq_nil h
  have hG : selfLoopGraph (vertexUniverse graphs) = (⟨∅, ∅⟩ : Graph) := by
    rw [h]; simp [selfLoopGraph]
  constructor
  · show fuseLoop t simfn (vertexUniverse graphs) verbose
      (nodeList (vertexUniverse graphs)) (selfLoopGraph (vertexUniverse graphs)) = _
    rw [hl, hG]
    rfl
  · show nwfFuseLoop (vertexUniverse graphs) verbose
      (nodeList (vertexUniverse graphs)) 1 (selfLoopGraph (vertexUniverse graphs)) = _
    rw [hl, hG]
    rfl

/-- Concrete instantiation of `c9_degenerate_input`: zero graphs, default
`verbose = 0`. -/
theorem c9_degenerate_input_witness :
    fuse 0 (fun _ V _ => V) [] (some 0) = .ok ⟨∅, ∅⟩ ∧
      networkFuserFuse [] (some 0) = .ok ⟨∅, ∅⟩ :=
  c9_degenerate_input 0 (fun _ V _ => V) (some 0) [] (by decide)

/-!  ## Claim C6: the `verbose` parameter  -/

/-- C6 (code bug).  The intended behaviour — `verbose` is purely
observational — holds for every value except the *default* `verbose=0`: any
non-`0` value yields exactly the result of `verbose=None`, while `verbose=0`
on a non-empty vertex universe raises `ZeroDivisionError` from `i % verbose`
(shown here on a one-node input). -/
theorem c6_verbose_observational :
    (∀ (t : ℚ) (simfn : ℕ → Finset ℕ → ℚ → Finset ℕ) (graphs : List Graph)
        (verbose : Option ℤ), verbose ≠ some 0 →
      fuse t simfn graphs verbose = fuse t simfn graphs none) ∧
      errOf (fuse 0 (fun _ _ _ => ∅) [⟨{0}, {(0, 0)}⟩] (some 0)) =
        some .zeroDivisionError := by
  constructor
  · intro t simfn graphs verbose hv
    unfold fuse
    exact fuseLoop_verbose_eq t simfn _ verbose hv _ _
  · decide

/-- Concrete instantiation of `c6_verbose_observational`. -/
theorem c6_verbose_observational_witness :
    fuse 0 (fun _ V _ => V) [⟨{0}, {(0, 0)}⟩] (some 3) =
      fuse 0 (fun _ V _ => V) [⟨{0}, {(0, 0)}⟩] none :=
  c6_verbose_observational.1 0 (fun _ V _ => V) [⟨{0}, {(0, 0)}⟩] (some 3) (by decide)

/-!  ## Claim C10: `NetworkFuser.fuse` is broken  -/

theorem nwfFuseLoop_ok {V : Finset ℕ} {verbose : Option ℤ} {l : List ℕ}
    {i : ℤ} {G G' : Graph}
    (h : nwfFuseLoop V verbose l i G = .ok G') : G' = G := by
  induction l generalizing i G with
  | nil => exact (Except.ok.inj h).symm
  | cons u rest ih =>
    cases verbose with
    | none =>
      simp only [nwfFuseLoop, nwfScan] at h
      by_cases he : V.erase u = ∅
      · rw [if_pos he] at h
        exact ih h
      · rw [if_neg he] at h
        simp at h
    | some v =>
      simp only [nwfFuseLoop, nwfScan] at h
      by_cases h1 : v = 0
      · subst h1
        rw [if_pos rfl] at h
        simp at h
      · rw [if_neg h1] at h
        by_cases h2 : i % v = 0
        · rw [if_pos h2] at h
          simp at h
        · rw [if_neg h2] at h
          by_cases he : V.erase u = ∅
          · rw [if_pos he] at h
            exact ih h
          · rw [if_neg he] at h
            simp at h

/-- C10 (amended).  In the `NetworkFuser` class, `fuse` can never perform a
similarity scan: with `verbose=None`, every call on graphs whose vertex
universe has at least two nodes raises `AttributeError`, because
`_above_threshold` reads `self.similarit_func` while the constructor only
defines `self.similarity_func`; with the *default* `verbose=0` such a call
instead raises `ZeroDivisionError` at the first loop iteration, before the
scan.  In all cases no oracle-derived `(source, candidate)` edge is ever
added: a successfully returned graph is exactly the self-loop graph on the
vertex universe (and indeed the scan would produce booleans, not candidate
nodes, were it ever to run). -/
theorem c10_networkfuser_fuse_broken :
    (∀ graphs : List Graph, 2 ≤ (vertexUniverse graphs).card →
        networkFuserFuse graphs none = .error .attributeError) ∧
      (∀ graphs : List Graph, 1 ≤ (vertexUniverse graphs).card →
        networkFuserFuse graphs (some 0) = .error .zeroDivisionError) ∧
      (∀ (graphs : List Graph) (verbose : Option ℤ) (G : Graph),
        networkFuserFuse graphs verbose = .ok G →
          G = selfLoopGraph (vertexUniverse graphs)) := by
  refine ⟨?_, ?_, ?_⟩
  · intro graphs hcard
    show nwfFuseLoop (vertexUniverse graphs) none
      (nodeList (vertexUniverse graphs)) 1 (selfLoopGraph (vertexUniverse graphs)) = _
    have hlen : 2 ≤ (nodeList (vertexUniverse graphs)).length := by
      rw [length_nodeList]; exact hcard
    obtain ⟨u, rest, hurest⟩ :
        ∃ u rest, nodeList (vertexUniverse graphs) = u :: rest := by
      cases hl : nodeList (vertexUniverse graphs) with
      | nil => rw [hl] at hlen; simp at hlen
      | cons a as => exact ⟨a, as, rfl⟩
    rw [hurest]
    have hu : u ∈ vertexUniverse graphs := mem_nodeList.mp (hurest ▸ List.mem_cons_self u rest)
    have herase : (vertexUniverse graphs).erase u ≠ ∅ := by
      intro hempty
      have := Finset.card_erase_of_mem hu
      rw [hempty] at this
      simp at this
      omega
    unfold nwfFuseLoop nwfScan
    rw [if_neg herase]
  · intro graphs hcard
    show nwfFuseLoop (vertexUniverse graphs) (some 0)
      (nodeList (vertexUniverse graphs)) 1 (selfLoopGraph (vertexUniverse graphs)) = _
    have hlen : 1 ≤ (nodeList (vertexUniverse graphs)).length := by
      rw [length_nodeList]; exact hcard
    obtain ⟨u, rest, hurest⟩ :
        ∃ u rest, nodeList (vertexUniverse graphs) = u :: rest := by
      cases hl : nodeList (vertexUniverse graphs) with
      | nil => rw [hl] at hlen; simp at hlen
      | cons a as => exact ⟨a, as, rfl⟩
    rw [hurest]
    unfold nwfFuseLoop
    rfl
  · intro graphs verbose G hok
    exact nwfFuseLoop_ok hok

/-- C10 counterexample to the claim as stated: on a two-node universe with
the default `verbose=0`, `NetworkFuser.fuse` raises `ZeroDivisionError`, not
`AttributeError`. -/
theorem c10_counterexample :
    networkFuserFuse [⟨{0, 1}, ∅⟩] (some 0) = .error .zeroDivisionError ∧
      (Except.error .zeroDivisionError : Except PyErr Graph) ≠
        .error .attributeError := by
  constructor
  · decide
  · decide

/-- Concrete instantiation of `c10_networkfuser_fuse_broken`. -/
theorem c10_networkfuser_fuse_broken_witness :
    networkFuserFuse [⟨{0, 1}, ∅⟩] none = .error .attributeError ∧
      networkFuserFuse [⟨{2}, ∅⟩] (some 0) = .error .zeroDivisionError ∧
      (⟨{2}, {(2, 2)}⟩ : Graph) = selfLoopGraph (vertexUniverse [⟨{2}, ∅⟩]) :=
  ⟨c10_networkfuser_fuse_broken.1 [⟨{0, 1}, ∅⟩] (by decide),
    c10_networkfuser_fuse_broken.2.1 [⟨{2}, ∅⟩] (by decide),
    c10_networkfuser_fuse_broken.2.2 [⟨{2}, ∅⟩] (some 5) ⟨{2}, {(2, 2)}⟩ (by decide)⟩

/-!  ## Claim C4: the shared default `collapsed` multigraph  -/

/-- C4 (code bug).  `collapse_fused_graph` defaults `collapsed` to one
`nx.MultiGraph()` shared across calls.  First call: a one-node fused graph
with no source graphs yields the collapsed graph `({0}, ∅)`.  Second call
*through the same default*: an **empty** fused graph (no components, empty
vertex universe, no source graphs) returns a collapsed graph that still
contains node `0` from the first call — state not derived from the second
call's arguments. -/
theorem c4_shared_default_collapsed :
    okCollapsed (collapse_fused_graph ⟨{7}, {(7, 7)}⟩ [] emptyMG) = ⟨{0}, 0⟩ ∧
      connComps (⟨∅, ∅⟩ : Graph) = [] ∧
      collapse_fused_graph ⟨∅, ∅⟩ []
          (okCollapsed (collapse_fused_graph ⟨{7}, {(7, 7)}⟩ [] emptyMG)) =
        .ok (⟨{0}, 0⟩, [], fun _ => none) := by
  refine ⟨by decide, by decide, ?_⟩
  show collapse_fused_graph ⟨∅, ∅⟩ [] ⟨{0}, 0⟩ = .ok (⟨{0}, 0⟩, [], fun _ => none)
  have h : connComps (⟨∅, ∅⟩ : Graph) = [] := by decide
  unfold collapse_fused_graph
  rw [h]
  rfl

/-!  ## Claim C5: precondition checking in the two collapse entry points  -/

theorem idsOf_error_kind {f : ℕ → Option ℕ} {l : List ℕ} {e : PyErr}
    (h : idsOf f l = .error e) : e = .keyError := by
  induction l with
  | nil => cases h
  | cons n rest ih =>
    unfold idsOf at h
    cases hf : f n with
    | none =>
      rw [hf] at h
      exact (Except.error.inj h).symm
    | some i =>
      rw [hf] at h
      cases hrec : idsOf f rest with
      | ok is => rw [hrec] at h; cases h
      | error e' =>
        rw [hrec] at h
        cases h
        exact ih hrec

theorem collapseStep_error_kind {graphs : List Graph} {st : CState} {i : ℕ}
    {C : Finset ℕ} {e : PyErr}
    (h : collapseStep graphs st i C = .error e) : e = .keyError := by
  simp only [collapseStep] at h
  cases hids : idsOf (updComp st.2.2 C i) (componentNeighbors graphs C) with
  | ok ids => rw [hids] at h; cases h
  | error e' =>
    rw [hids] at h
    cases h
    exact idsOf_error_kind hids

theorem collapseLoop_error_kind {graphs : List Graph} {l : List (Finset ℕ)}
    {i : ℕ} {st : CState} {e : PyErr}
    (h : collapseLoop graphs l i st = .error e) : e = .keyError := by
  induction l generalizing i st with
  | nil => cases h
  | cons C rest ih =>
    unfold collapseLoop at h
    cases hstep : collapseStep graphs st i C with
    | ok st' =>
      rw [hstep] at h
      exact ih h
    | error e' =>
      rw [hstep] at h
      cases h
      exact collapseStep_error_kind hstep

theorem collapse_fused_graph_error_kind {fuser : Graph} {graphs : List Graph}
    {M : MultiGraph} {e : PyErr}
    (h : collapse_fused_graph fuser graphs M = .error e) : e = .keyError :=
  collapseLoop_error_kind h

/-- C5 (amended).  `NetworkFuser.collapse` raises `AssertionError` exactly
when some `sourceGraphs` element is not an `nx.Graph` — immediately, before
producing any output — and never for graph inputs.  The module-level
`collapse_fused_graph`, however, performs no such validation: called on an
empty fused graph with a non-graph source argument it returns normally. -/
theorem c5_collapse_precondition :
    (∀ (fuser : Graph) (objs : List PyObj) (M : MultiGraph),
      networkFuserCollapse fuser objs M = .error .assertionError ↔
        ¬ objs.all PyObj.isGraph = true) ∧
      collapseOk (collapseFusedGraphObjs ⟨∅, ∅⟩ [.nonGraph] emptyMG) = true := by
  constructor
  · intro fuser objs M
    unfold networkFuserCollapse
    by_cases hall : objs.all PyObj.isGraph = true
    · rw [if_pos hall]
      simp only [hall, not_true_eq_false, iff_false]
      intro hc
      cases hcol : collapse_fused_graph fuser (PyObj.asGraphs objs) M with
      | ok st => rw [hcol] at hc; cases hc
      | error e =>
        rw [hcol] at hc
        have he : e = .keyError := collapse_fused_graph_error_kind hcol
        have : e = .assertionError := Except.error.inj hc
        rw [he] at this
        cases this
    · rw [if_neg hall]
      simp [hall]
  · decide

/-- C5 counterexample to the claim as stated: a call to the module-level
collapse with a non-graph source argument (empty fused graph) raises nothing
and returns normally. -/
theorem c5_counterexample :
    collapseOk (collapseFusedGraphObjs ⟨∅, ∅⟩ [.nonGraph] emptyMG) = true ∧
      PyObj.nonGraph.isGraph = false := by
  decide

/-- Concrete instantiation of `c5_collapse_precondition`. -/
theorem c5_collapse_precondition_witness :
    networkFuserCollapse ⟨{1}, {(1, 1)}⟩ [.graph ⟨{1}, ∅⟩, .nonGraph] emptyMG =
      .error .assertionError :=
  (c5_collapse_precondition.1 ⟨{1}, {(1, 1)}⟩ [.graph ⟨{1}, ∅⟩, .nonGraph]
    emptyMG).mpr (by decide)

/-!  ## Connected components form a partition  -/

theorem nbrs_subset_nodes (g : Graph) (n : ℕ) : g.nbrs n ⊆ g.nodes :=
  Finset.filter_subset _ _

theorem mem_nbrs_nodes {g : Graph} {n m : ℕ} (h : m ∈ g.nbrs n) : m ∈ g.nodes :=
  nbrs_subset_nodes g n h

theorem mem_nbrs_symm {g : Graph} {n m : ℕ} (hn : n ∈ g.nodes)
    (hm : m ∈ g.nbrs n) : n ∈ g.nbrs m := by
  simp only [Graph.nbrs, Finset.mem_filter] at hm ⊢
  refine ⟨hn, ?_⟩
  rw [edgeKey_comm]
  exact hm.2

theorem subset_expandOnce (g : Graph) (S : Finset ℕ) : S ⊆ expandOnce g S :=
  Finset.subset_union_left

theorem expandOnce_subset {g : Graph} {S T : Finset ℕ}
    (hST : S ⊆ T) (hclosed : ∀ w ∈ T, g.nbrs w ⊆ T) : expandOnce g S ⊆ T := by
  unfold expandOnce
  refine Finset.union_subset hST (fun x hx => ?_)
  obtain ⟨u, hu, hxu⟩ := Finset.mem_biUnion.mp hx
  exact hclosed u (hST hu) hxu

theorem iterate_expandOnce_subset {g : Graph} {T : Finset ℕ}
    (hclosed : ∀ w ∈ T, g.nbrs w ⊆ T) (n : ℕ) (S : Finset ℕ) (hS : S ⊆ T) :
    (expandOnce g)^[n] S ⊆ T := by
  induction n generalizing S with
  | zero => exact hS
  | succ m ih =>
    rw [Function.iterate_succ_apply]
    exact ih _ (expandOnce_subset hS hclosed)

theorem reachSet_subset_nodes {g : Graph} {u : ℕ} (hu : u ∈ g.nodes) :
    reachSet g u ⊆ g.nodes :=
  iterate_expandOnce_subset (fun w _ => nbrs_subset_nodes g w) _ _
    (Finset.singleton_subset_iff.mpr hu)

theorem mem_reachSet_self (g : Graph) (u : ℕ) : u ∈ reachSet g u := by
  unfold reachSet
  have h : ∀ n, ({u} : Finset ℕ) ⊆ (expandOnce g)^[n] {u} := by
    intro n
    induction n with
    | zero => exact Finset.Subset.refl _
    | succ m ih =>
      rw [Function.iterate_succ_apply']
      exact ih.trans (subset_expandOnce g _)
  exact Finset.singleton_subset_iff.mp (h _)

theorem iterate_stabilizes {g : Graph} {u : ℕ} {k n : ℕ} (hkn : k ≤ n)
    (h : (expandOnce g)^[k + 1] {u} = (expandOnce g)^[k] {u}) :
    expandOnce g ((expandOnce g)^[n] {u}) = (expandOnce g)^[n] {u} := by
  have hfix : expandOnce g ((expandOnce g)^[k] {u}) = (expandOnce g)^[k] {u} :=
    (Function.iterate_succ_apply' (expandOnce g) k {u}).symm.trans h
  obtain ⟨m, rfl⟩ := Nat.exists_eq_add_of_le hkn
  rw [Nat.add_comm k m, Function.iterate_add_apply,
    Function.iterate_fixed hfix m, hfix]

theorem reachSet_fixpoint {g : Graph} {u : ℕ} (hu : u ∈ g.nodes) :
    expandOnce g (reachSet g u) = reachSet g u := by
  unfold reachSet
  by_contra hne
  have hgrow : ∀ k, k ≤ g.nodes.card → k + 1 ≤ ((expandOnce g)^[k] {u}).card := by
    intro k
    induction k with
    | zero => intro _; simp
    | succ m ihm =>
      intro hk
      have h1 := ihm (Nat.le_of_succ_le hk)
      have hne' : (expandOnce g)^[m + 1] {u} ≠ (expandOnce g)^[m] {u} := by
        intro heq
        exact hne (iterate_stabilizes (Nat.le_of_succ_le hk) heq)
      have hsub : (expandOnce g)^[m] {u} ⊆ (expandOnce g)^[m + 1] {u} := by
        rw [Function.iterate_succ_apply']
        exact subset_expandOnce g _
      have hss : (expandOnce g)^[m] {u} ⊂ (expandOnce g)^[m + 1] {u} :=
        lt_of_le_of_ne hsub (fun heq => hne' heq.symm)
      have := Finset.card_lt_card hss
      omega
  have hsubnodes : ((expandOnce g)^[g.nodes.card] {u}) ⊆ g.nodes :=
    iterate_expandOnce_subset (fun w _ => nbrs_subset_nodes g w) _ _
      (Finset.singleton_subset_iff.mpr hu)
  have h1 := hgrow g.nodes.card le_rfl
  have h2 := Finset.card_le_card hsubnodes
  omega

theorem reachSet_minimal {g : Graph} {u : ℕ} {T : Finset ℕ} (huT : u ∈ T)
    (hclosed : ∀ w ∈ T, g.nbrs w ⊆ T) : reachSet g u ⊆ T :=
  iterate_expandOnce_subset hclosed _ _ (Finset.singleton_subset_iff.mpr huT)

theorem nbrs_subset_reachSet {g : Graph} {u w : ℕ} (hu : u ∈ g.nodes)
    (hw : w ∈ reachSet g u) : g.nbrs w ⊆ reachSet g u := by
  intro x hx
  have h : x ∈ expandOnce g (reachSet g u) :=
    Finset.mem_union_right _ (Finset.mem_biUnion.mpr ⟨w, hw, hx⟩)
  rwa [reachSet_fixpoint hu] at h

theorem reachSet_symm {g : Graph} {u v : ℕ} (hu : u ∈ g.nodes)
    (hv : v ∈ reachSet g u) : u ∈ reachSet g v := by
  have hsub : reachSet g u ⊆
      (reachSet g u).filter (fun w => u ∈ reachSet g w) := by
    refine reachSet_minimal (Finset.mem_filter.mpr
      ⟨mem_reachSet_self g u, mem_reachSet_self g u⟩) ?_
    intro w hwW x hx
    obtain ⟨hwreach, hureach⟩ := Finset.mem_filter.mp hwW
    have hwnodes : w ∈ g.nodes := reachSet_subset_nodes hu hwreach
    have hxnodes : x ∈ g.nodes := mem_nbrs_nodes hx
    refine Finset.mem_filter.mpr ⟨nbrs_subset_reachSet hu hwreach hx, ?_⟩
    have hwx : w ∈ g.nbrs x := mem_nbrs_symm hwnodes hx
    have hw_in_x : w ∈ reachSet g x :=
      nbrs_subset_reachSet hxnodes (mem_reachSet_self g x) hwx
    have hsub2 : reachSet g w ⊆ reachSet g x :=
      reachSet_minimal hw_in_x (fun y hy => nbrs_subset_reachSet hxnodes hy)
    exact hsub2 hureach
  exact (Finset.mem_filter.mp (hsub hv)).2

theorem reachSet_eq_of_mem {g : Graph} {u v : ℕ} (hu : u ∈ g.nodes)
    (hv : v ∈ reachSet g u) : reachSet g v = reachSet g u := by
  have hvnodes : v ∈ g.nodes := reachSet_subset_nodes hu hv
  apply Finset.Subset.antisymm
  · exact reachSet_minimal hv (fun y hy => nbrs_subset_reachSet hu hy)
  · exact reachSet_minimal (reachSet_symm hu hv)
      (fun y hy => nbrs_subset_reachSet hvnodes hy)

theorem buildComps_mono {g : Graph} {l : List ℕ} {acc : List (Finset ℕ)}
    {C : Finset ℕ} (h : C ∈ acc) : C ∈ buildComps g l acc := by
  induction l generalizing acc with
  | nil => exact h
  | cons u rest ih =>
    unfold buildComps
    by_cases hguard : acc.any (fun c => decide (u ∈ c))
    · rw [if_pos hguard]; exact ih h
    · rw [if_neg hguard]; exact ih (List.mem_append_left _ h)

theorem buildComps_inv {g : Graph} (l : List ℕ) :
    ∀ acc : List (Finset ℕ),
      (∀ u ∈ l, u ∈ g.nodes) →
      (∀ C ∈ acc, ∃ w ∈ g.nodes, C = reachSet g w) →
      acc.Pairwise Disjoint →
      (∀ C ∈ buildComps g l acc, ∃ w ∈ g.nodes, C = reachSet g w) ∧
        (buildComps g l acc).Pairwise Disjoint := by
  induction l with
  | nil =>
    intro acc _ hacc hdisj
    exact ⟨hacc, hdisj⟩
  | cons u rest ih =>
    intro acc hl hacc hdisj
    unfold buildComps
    by_cases hguard : acc.any (fun c => decide (u ∈ c))
    · rw [if_pos hguard]
      exact ih acc (fun v hv => hl v (List.mem_cons_of_mem u hv)) hacc hdisj
    · rw [if_neg hguard]
      have hu : u ∈ g.nodes := hl u (List.mem_cons_self u rest)
      have hnotin : ∀ C ∈ acc, u ∉ C := by
        intro C hC huC
        exact hguard (List.any_eq_true.mpr ⟨C, hC, decide_eq_true huC⟩)
      refine ih _ (fun v hv => hl v (List.mem_cons_of_mem u hv)) ?_ ?_
      · intro C hC
        rcases List.mem_append.mp hC with hC | hC
        · exact hacc C hC
        · rw [List.mem_singleton.mp hC]
          exact ⟨u, hu, rfl⟩
      · rw [List.pairwise_append]
        refine ⟨hdisj, List.pairwise_singleton _ _, ?_⟩
        intro C hC D hD
        rw [List.mem_singleton.mp hD]
        obtain ⟨w, hw, rfl⟩ := hacc C hC
        rw [Finset.disjoint_left]
        intro x hxC hxU
        have h1 : reachSet g x = reachSet g w := reachSet_eq_of_mem hw hxC
        have h2 : reachSet g x = reachSet g u := reachSet_eq_of_mem hu hxU
        have hmem : u ∈ reachSet g w := by
          rw [← h1, h2]
          exact mem_reachSet_self g u
        exact hnotin _ hC hmem

theorem buildComps_covers {g : Graph} (l : List ℕ) :
    ∀ (acc : List (Finset ℕ)) {u : ℕ}, u ∈ l →
      ∃ C ∈ buildComps g l acc, u ∈ C := by
  induction l with
  | nil =>
    intro acc u hu
    cases hu
  | cons v rest ih =>
    intro acc u hu
    unfold buildComps
    by_cases hguard : acc.any (fun c => decide (v ∈ c))
    · rw [if_pos hguard]
      rcases List.mem_cons.mp hu with rfl | hu'
      · obtain ⟨C, hC, hmem⟩ := List.any_eq_true.mp hguard
        exact ⟨C, buildComps_mono hC, of_decide_eq_true hmem⟩
      · exact ih _ hu'
    · rw [if_neg hguard]
      rcases List.mem_cons.mp hu with rfl | hu'
      · exact ⟨reachSet g u,
          buildComps_mono (List.mem_append_right _ (List.mem_singleton_self _)),
          mem_reachSet_self g u⟩
      · exact ih _ hu'

theorem rawComponents_inv (g : Graph) :
    (∀ C ∈ rawComponents g, ∃ w ∈ g.nodes, C = reachSet g w) ∧
      (rawComponents g).Pairwise Disjoint :=
  buildComps_inv _ [] (fun u hu => mem_nodeList.mp hu)
    (fun C hC => absurd hC (List.not_mem_nil C)) List.Pairwise.nil

theorem rawComponents_covers {g : Graph} {u : ℕ} (hu : u ∈ g.nodes) :
    ∃ C ∈ rawComponents g, u ∈ C :=
  buildComps_covers _ [] (mem_nodeList.mpr hu)

theorem connComps_perm (g : Graph) : (connComps g).Perm (rawComponents g) :=
  List.perm_insertionSort _ _

theorem mem_connComps_iff {g : Graph} {C : Finset ℕ} :
    C ∈ connComps g ↔ C ∈ rawComponents g :=
  (connComps_perm g).mem_iff

theorem connComps_sets {g : Graph} {C : Finset ℕ} (hC : C ∈ connComps g) :
    ∃ w ∈ g.nodes, C = reachSet g w :=
  (rawComponents_inv g).1 C (mem_connComps_iff.mp hC)

theorem connComps_subset_nodes {g : Graph} {C : Finset ℕ} (hC : C ∈ connComps g) :
    C ⊆ g.nodes := by
  obtain ⟨w, hw, rfl⟩ := connComps_sets hC
  exact reachSet_subset_nodes hw

theorem connComps_pairwise_disjoint (g : Graph) :
    (connComps g).Pairwise Disjoint :=
  ((connComps_perm g).pairwise_iff (fun h => h.symm)).mpr (rawComponents_inv g).2

theorem connComps_covers {g : Graph} {u : ℕ} (hu : u ∈ g.nodes) :
    ∃ C ∈ connComps g, u ∈ C := by
  obtain ⟨C, hC, huC⟩ := rawComponents_covers hu
  exact ⟨C, mem_connComps_iff.mpr hC, huC⟩

theorem pairwise_disjoint_sum_card (L : List (Finset ℕ))
    (hdisj : L.Pairwise Disjoint) :
    (L.map Finset.card).sum = (L.foldr (· ∪ ·) ∅).card := by
  induction L with
  | nil => simp
  | cons C rest ih =>
    have hd : Disjoint C (rest.foldr (· ∪ ·) ∅) := by
      rw [Finset.disjoint_left]
      intro x hxC hxU
      have hmem : ∃ D ∈ rest, x ∈ D := by
        clear ih hdisj
        induction rest with
        | nil => simp at hxU
        | cons D rest2 ih2 =>
          simp only [List.foldr_cons, Finset.mem_union] at hxU
          rcases hxU with hxD | hxU
          · exact ⟨D, List.mem_cons_self _ _, hxD⟩
          · obtain ⟨E, hE, hxE⟩ := ih2 hxU
            exact ⟨E, List.mem_cons_of_mem _ hE, hxE⟩
      obtain ⟨D, hD, hxD⟩ := hmem
      have := (List.pairwise_cons.mp hdisj).1 D hD
      exact (Finset.disjoint_left.mp this) hxC hxD
    simp only [List.map_cons, List.sum_cons, List.foldr_cons]
    rw [ih (List.pairwise_cons.mp hdisj).2, Finset.card_union_of_disjoint hd]

theorem mem_foldr_union {L : List (Finset ℕ)} {x : ℕ} :
    x ∈ L.foldr (· ∪ ·) ∅ ↔ ∃ C ∈ L, x ∈ C := by
  induction L with
  | nil => simp
  | cons C rest ih =>
    simp only [List.foldr_cons, Finset.mem_union, ih, List.mem_cons]
    constructor
    · rintro (hx | ⟨D, hD, hxD⟩)
      · exact ⟨C, Or.inl rfl, hx⟩
      · exact ⟨D, Or.inr hD, hxD⟩
    · rintro ⟨D, rfl | hD, hxD⟩
      · exact Or.inl hxD
      · exact Or.inr ⟨D, hD, hxD⟩

theorem connComps_union (g : Graph) :
    (connComps g).foldr (· ∪ ·) ∅ = g.nodes := by
  apply Finset.Subset.antisymm
  · intro x hx
    obtain ⟨C, hC, hxC⟩ := mem_foldr_union.mp hx
    exact connComps_subset_nodes hC hxC
  · intro x hx
    obtain ⟨C, hC, hxC⟩ := connComps_covers hx
    exact mem_foldr_union.mpr ⟨C, hC, hxC⟩

theorem connComps_sum_card (g : Graph) :
    ((connComps g).map Finset.card).sum = g.nodes.card := by
  rw [pairwise_disjoint_sum_card _ (connComps_pairwise_disjoint g), connComps_union]

/-!  ## Success analysis of the collapse loop  -/

theorem idsOf_ok_isSome {f : ℕ → Option ℕ} {l : List ℕ} {ids : List ℕ}
    (h : idsOf f l = .ok ids) : ∀ m ∈ l, (f m).isSome = true := by
  induction l generalizing ids with
  | nil =>
    intro m hm
    cases hm
  | cons n rest ih =>
    intro m hm
    unfold idsOf at h
    cases hf : f n with
    | none => rw [hf] at h; cases h
    | some j =>
      rw [hf] at h
      cases hrec : idsOf f rest with
      | error e => rw [hrec] at h; cases h
      | ok is =>
        rcases List.mem_cons.mp hm with rfl | hm'
        · rw [hf]; rfl
        · exact ih hrec m hm'

theorem idsOf_all_some {f : ℕ → Option ℕ} {i : ℕ} {l : List ℕ}
    (h : ∀ m ∈ l, f m = some i) :
    idsOf f l = .ok (l.map (fun _ => i)) := by
  induction l with
  | nil => rfl
  | cons n rest ih =>
    unfold idsOf
    rw [h n (List.mem_cons_self n rest), ih (fun m hm => h m (List.mem_cons_of_mem _ hm))]
    rfl

theorem collapseStep_ok_parts {graphs : List Graph} {st : CState} {i : ℕ}
    {C : Finset ℕ} {st' : CState} (h : collapseStep graphs st i C = .ok st') :
    st'.2.2 = updComp st.2.2 C i ∧ st'.2.1 = st.2.1 ++ [(i, C)] ∧
      ∀ m ∈ componentNeighbors graphs C, (updComp st.2.2 C i m).isSome = true := by
  simp only [collapseStep] at h
  cases hids : idsOf (updComp st.2.2 C i) (componentNeighbors graphs C) with
  | error e => rw [hids] at h; cases h
  | ok ids =>
    rw [hids] at h
    cases h
    exact ⟨rfl, rfl, idsOf_ok_isSome hids⟩

theorem collapseLoop_ok_cons {graphs : List Graph} {C : Finset ℕ}
    {rest : List (Finset ℕ)} {i : ℕ} {st out : CState}
    (h : collapseLoop graphs (C :: rest) i st = .ok out) :
    ∃ st', collapseStep graphs st i C = .ok st' ∧
      collapseLoop graphs rest (i + 1) st' = .ok out := by
  unfold collapseLoop at h
  cases hs : collapseStep graphs st i C with
  | error e => rw [hs] at h; cases h
  | ok st' =>
    rw [hs] at h
    exact ⟨st', rfl, h⟩

theorem mem_componentNeighbors {graphs : List Graph} {C : Finset ℕ} {m : ℕ} :
    m ∈ componentNeighbors graphs C ↔
      ∃ n ∈ C, ∃ g ∈ graphs, n ∈ g.nodes ∧ m ∈ g.nbrs n := by
  simp only [componentNeighbors, List.mem_flatMap, graphsContaining, List.mem_filter,
    nodeNbrList, mem_nodeList, decide_eq_true_eq]
  constructor
  · rintro ⟨n, hn, g, ⟨hg, hgn⟩, hm⟩
    exact ⟨n, hn, g, hg, hgn, hm⟩
  · rintro ⟨n, hn, g, hg, hgn, hm⟩
    exact ⟨n, hn, g, ⟨hg, hgn⟩, hm⟩

theorem componentNeighbors_subset_iff {graphs : List Graph} {C : Finset ℕ} :
    (∀ m ∈ componentNeighbors graphs C, m ∈ C) ↔ allInternal graphs C := by
  unfold allInternal
  constructor
  · intro h n hn g hg hgn x hx
    exact h x (mem_componentNeighbors.mpr ⟨n, hn, g, hg, hgn, hx⟩)
  · intro h m hm
    obtain ⟨n, hn, g, hg, hgn, hmn⟩ := mem_componentNeighbors.mp hm
    exact h n hn g hg hgn hmn

theorem collapseLoop_ok_stage {graphs : List Graph} :
    ∀ (l : List (Finset ℕ)) (i : ℕ) (st out : CState),
      collapseLoop graphs l i st = .ok out →
      ∀ (j : ℕ) (hj : j < l.length),
        ∀ m ∈ componentNeighbors graphs (l.get ⟨j, hj⟩),
          (st.2.2 m).isSome = true ∨
            ∃ h, ∃ hh : h < l.length, h ≤ j ∧ m ∈ l.get ⟨h, hh⟩ := by
  intro l
  induction l with
  | nil =>
    intro i st out _ j hj
    exact absurd hj (Nat.not_lt_zero j)
  | cons C rest ih =>
    intro i st out hok j hj m hm
    obtain ⟨st', hstep, hloop⟩ := collapseLoop_ok_cons hok
    obtain ⟨hn2f, hid2, hsome⟩ := collapseStep_ok_parts hstep
    cases j with
    | zero =>
      have hm' : m ∈ componentNeighbors graphs C := hm
      have hval := hsome m hm'
      by_cases hmC : m ∈ C
      · exact Or.inr ⟨0, hj, le_refl 0, hmC⟩
      · left
        unfold updComp at hval
        rwa [if_neg hmC] at hval
    | succ j' =>
      have hj' : j' < rest.length := by simpa using hj
      have hm' : m ∈ componentNeighbors graphs (rest.get ⟨j', hj'⟩) := by
        simpa [List.get_cons_succ] using hm
      rcases ih (i + 1) st' out hloop j' hj' m hm' with hsome' | ⟨h, hh, hhj, hmh⟩
      · rw [hn2f] at hsome'
        unfold updComp at hsome'
        by_cases hmC : m ∈ C
        · exact Or.inr ⟨0, by simp, Nat.zero_le _, hmC⟩
        · rw [if_neg hmC] at hsome'
          exact Or.inl hsome'
      · refine Or.inr ⟨h + 1, by simpa using hh, Nat.succ_le_succ hhj, ?_⟩
        simpa [List.get_cons_succ] using hmh

theorem collapseLoop_ok_of_internal {graphs : List Graph} :
    ∀ (l : List (Finset ℕ)) (i : ℕ) (st : CState),
      (∀ C ∈ l, ∀ m ∈ componentNeighbors graphs C, m ∈ C) →
      ∃ out, collapseLoop graphs l i st = .ok out := by
  intro l
  induction l with
  | nil =>
    intro i st _
    exact ⟨st, rfl⟩
  | cons C rest ih =>
    intro i st hint
    have hall : ∀ m ∈ componentNeighbors graphs C, updComp st.2.2 C i m = some i := by
      intro m hm
      unfold updComp
      rw [if_pos (hint C (List.mem_cons_self _ _) m hm)]
    obtain ⟨st', hstep⟩ : ∃ st', collapseStep graphs st i C = .ok st' := by
      simp only [collapseStep]
      rw [idsOf_all_some hall]
      exact ⟨_, rfl⟩
    obtain ⟨out, hout⟩ := ih (i + 1) st'
      (fun D hD => hint D (List.mem_cons_of_mem _ hD))
    refine ⟨out, ?_⟩
    unfold collapseLoop
    rw [hstep]
    exact hout

theorem collapse_ok_iff_internal (fuser : Graph) (graphs : List Graph)
    (M : MultiGraph) :
    collapseOk (collapse_fused_graph fuser graphs M) = true ↔
      ∀ C ∈ connComps fuser, allInternal graphs C := by
  constructor
  · intro hok C hC
    obtain ⟨out, hout⟩ : ∃ out,
        collapseLoop graphs (connComps fuser) 0 (M, [], fun _ => none) = .ok out := by
      unfold collapse_fused_graph at hok
      cases hres : collapseLoop graphs (connComps fuser) 0 (M, [], fun _ => none) with
      | error e => rw [hres] at hok; cases hok
      | ok out => exact ⟨out, rfl⟩
    rw [← componentNeighbors_subset_iff]
    intro m hm
    obtain ⟨⟨j, hj⟩, hget⟩ := List.mem_iff_get.mp hC
    have hdisj := List.pairwise_iff_get.mp (connComps_pairwise_disjoint fuser)
    have hstage := collapseLoop_ok_stage (connComps fuser) 0 _ out hout
    rcases hstage j hj m (by rwa [hget]) with hfalse | ⟨h, hh, hhj, hmh⟩
    · cases hfalse
    · rcases Nat.lt_or_ge h j with hlt | hge
      · -- m landed in an earlier component: that component's step already
        -- looked up this very neighbour relation from the other side
        exfalso
        obtain ⟨n, hn, g, hg, hgn, hmn⟩ := mem_componentNeighbors.mp hm
        have hmnodes : m ∈ g.nodes := mem_nbrs_nodes hmn
        have hnm : n ∈ g.nbrs m := mem_nbrs_symm hgn hmn
        have hn_nb : n ∈ componentNeighbors graphs ((connComps fuser).get ⟨h, hh⟩) :=
          mem_componentNeighbors.mpr ⟨m, hmh, g, hg, hmnodes, hnm⟩
        rcases hstage h hh n hn_nb with hfalse | ⟨h', hh', hh'h, hnh'⟩
        · cases hfalse
        · have hne : h' < j := Nat.lt_of_le_of_lt hh'h hlt
          have hd : Disjoint ((connComps fuser).get ⟨h', hh'⟩)
              ((connComps fuser).get ⟨j, hj⟩) := hdisj ⟨h', hh'⟩ ⟨j, hj⟩ hne
          exact (Finset.disjoint_left.mp hd) hnh' (hget ▸ hn)
      · have : h = j := Nat.le_antisymm hhj hge
        subst this
        rwa [hget] at hmh
  · intro hint
    obtain ⟨out, hout⟩ := collapseLoop_ok_of_internal (connComps fuser) 0
      (M, [], fun _ => none)
      (fun C hC => componentNeighbors_subset_iff.mpr (hint C hC))
    unfold collapse_fused_graph
    rw [hout]
    rfl

theorem collapse_keyError_iff (fuser : Graph) (graphs : List Graph)
    (M : MultiGraph) :
    collapse_fused_graph fuser graphs M = .error .keyError ↔
      ¬ ∀ C ∈ connComps fuser, allInternal graphs C := by
  rw [← collapse_ok_iff_internal fuser graphs M]
  cases hres : collapse_fused_graph fuser graphs M with
  | ok out =>
    simp only [collapseOk]
    constructor
    · intro h; cases h
    · intro h; exact absurd trivial h
  | error e =>
    have he : e = .keyError := collapse_fused_graph_error_kind hres
    subst he
    simp [collapseOk]

/-!  ## Claim C8: the membership maps partition the fused node set  -/

theorem collapseLoop_ok_state {graphs : List Graph} :
    ∀ (l : List (Finset ℕ)) (i : ℕ) (st out : CState),
      collapseLoop graphs l i st = .ok out →
      out.2.1 = st.2.1 ++ List.enumFrom i l ∧
        ∀ m : ℕ, (out.2.2 m).isSome = true ↔
          ((∃ C ∈ l, m ∈ C) ∨ (st.2.2 m).isSome = true) := by
  intro l
  induction l with
  | nil =>
    intro i st out h
    cases h
    simp
  | cons C rest ih =>
    intro i st out h
    obtain ⟨st', hstep, hloop⟩ := collapseLoop_ok_cons h
    obtain ⟨hn2f, hid2, -⟩ := collapseStep_ok_parts hstep
    obtain ⟨hid2', hn2f'⟩ := ih (i + 1) st' out hloop
    constructor
    · rw [hid2', hid2]
      simp [List.enumFrom]
    · intro m
      rw [hn2f' m, hn2f]
      unfold updComp
      by_cases hmC : m ∈ C
      · simp [hmC]
      · simp only [if_neg hmC, List.mem_cons]
        constructor
        · rintro (⟨D, hD, hmD⟩ | hsome)
          · exact Or.inl ⟨D, Or.inr hD, hmD⟩
          · exact Or.inr hsome
        · rintro (⟨D, rfl | hD, hmD⟩ | hsome)
          · exact absurd hmD hmC
          · exact Or.inl ⟨D, hD, hmD⟩
          · exact Or.inr hsome

theorem mem_enumFrom_iff {α : Type} {p : ℕ × α} {i : ℕ} {l : List α} :
    p ∈ List.enumFrom i l ↔
      ∃ k, ∃ hk : k < l.length, p = (i + k, l.get ⟨k, hk⟩) := by
  induction l generalizing i with
  | nil => simp [List.enumFrom]
  | cons a as ih =>
    simp only [List.enumFrom, List.mem_cons, ih]
    constructor
    · rintro (rfl | ⟨k, hk, rfl⟩)
      · exact ⟨0, by simp, by simp⟩
      · refine ⟨k + 1, by simpa using hk, ?_⟩
        rw [Prod.ext_iff]
        refine ⟨by simp; omega, ?_⟩
        simp [List.get_cons_succ]
    · rintro ⟨k, hk, rfl⟩
      cases k with
      | zero => exact Or.inl (by simp)
      | succ k' =>
        refine Or.inr ⟨k', by simpa using hk, ?_⟩
        rw [Prod.ext_iff]
        refine ⟨by simp; omega, ?_⟩
        simp [List.get_cons_succ]

/-- C8.  For every successful `collapse_fused_graph` call, the returned
`id2fused_set` map partitions the fused graph's node set: the sizes of the
member sets sum to `|V*|`, distinct entries have disjoint member sets, and
the returned `node2fuse_id` map assigns a component id to every node of the
fused graph (exactly one — it is a map). -/
theorem c8_partition (fuser : Graph) (graphs : List Graph) (M : MultiGraph)
    (hok : collapseOk (collapse_fused_graph fuser graphs M) = true) :
    ((okId2 (collapse_fused_graph fuser graphs M)).map (fun p => p.2.card)).sum =
        fuser.nodes.card ∧
      (∀ p ∈ okId2 (collapse_fused_graph fuser graphs M),
        ∀ q ∈ okId2 (collapse_fused_graph fuser graphs M),
          p ≠ q → Disjoint p.2 q.2) ∧
      (∀ u ∈ fuser.nodes,
        (okN2f (collapse_fused_graph fuser graphs M) u).isSome = true) := by
  cases hres : collapse_fused_graph fuser graphs M with
  | error e => rw [hres] at hok; cases hok
  | ok out =>
    have hres' : collapseLoop graphs (connComps fuser) 0 (M, [], fun _ => none) =
        .ok out := hres
    obtain ⟨hid2, hn2f⟩ := collapseLoop_ok_state _ 0 _ out hres'
    simp only [List.nil_append] at hid2
    refine ⟨?_, ?_, ?_⟩
    · show ((out.2.1).map (fun p => p.2.card)).sum = fuser.nodes.card
      rw [hid2]
      have h1 : (List.enumFrom 0 (connComps fuser)).map (fun p => p.2.card) =
          (connComps fuser).map Finset.card := by
        have h2 := List.enumFrom_map_snd 0 (connComps fuser)
        calc (List.enumFrom 0 (connComps fuser)).map (fun p => p.2.card)
            = ((List.enumFrom 0 (connComps fuser)).map Prod.snd).map Finset.card := by
              rw [List.map_map]; rfl
          _ = (connComps fuser).map Finset.card := by rw [h2]
      rw [h1, connComps_sum_card]
    · show ∀ p ∈ out.2.1, ∀ q ∈ out.2.1, p ≠ q → Disjoint p.2 q.2
      rw [hid2]
      intro p hp q hq hne
      obtain ⟨k, hk, rfl⟩ := mem_enumFrom_iff.mp hp
      obtain ⟨k', hk', rfl⟩ := mem_enumFrom_iff.mp hq
      have hkk : k ≠ k' := by
        intro heq
        subst heq
        exact hne rfl
      have hdisj := List.pairwise_iff_get.mp (connComps_pairwise_disjoint fuser)
      rcases Nat.lt_or_ge k k' with hlt | hge
      · exact hdisj ⟨k, hk⟩ ⟨k', hk'⟩ hlt
      · exact (hdisj ⟨k', hk'⟩ ⟨k, hk⟩ (Nat.lt_of_le_of_ne hge (Ne.symm hkk))).symm
    · intro u hu
      show (out.2.2 u).isSome = true
      obtain ⟨C, hC, huC⟩ := connComps_covers hu
      exact (hn2f u).mpr (Or.inl ⟨C, hC, huC⟩)

/-- Concrete instantiation of `c8_partition`: the fused graph on `{1, 2}`
with analog edge `1–2`, one source graph with edge `1–2`. -/
theorem c8_partition_witness :
    ((okId2 (collapse_fused_graph ⟨{1, 2}, {(1, 1), (2, 2), (1, 2)}⟩
        [⟨{1, 2}, {(1, 2)}⟩] emptyMG)).map (fun p => p.2.card)).sum =
        (Graph.nodes ⟨{1, 2}, {(1, 1), (2, 2), (1, 2)}⟩).card ∧
      (∀ p ∈ okId2 (collapse_fused_graph ⟨{1, 2}, {(1, 1), (2, 2), (1, 2)}⟩
          [⟨{1, 2}, {(1, 2)}⟩] emptyMG),
        ∀ q ∈ okId2 (collapse_fused_graph ⟨{1, 2}, {(1, 1), (2, 2), (1, 2)}⟩
          [⟨{1, 2}, {(1, 2)}⟩] emptyMG),
          p ≠ q → Disjoint p.2 q.2) ∧
      (∀ u ∈ Graph.nodes ⟨{1, 2}, {(1, 1), (2, 2), (1, 2)}⟩,
        (okN2f (collapse_fused_graph ⟨{1, 2}, {(1, 1), (2, 2), (1, 2)}⟩
          [⟨{1, 2}, {(1, 2)}⟩] emptyMG) u).isSome = true) :=
  c8_partition ⟨{1, 2}, {(1, 1), (2, 2), (1, 2)}⟩ [⟨{1, 2}, {(1, 2)}⟩] emptyMG
    (by decide)

/-!  ## The edge multiset of a successful collapse  -/

theorem addEdges_edges (M : MultiGraph) (ps : List (ℕ × ℕ)) :
    (M.addEdges ps).edges =
      M.edges + (↑(ps.map (fun p => edgeKey p.1 p.2)) : Multiset (ℕ × ℕ)) := by
  induction ps generalizing M with
  | nil => simp [MultiGraph.addEdges]
  | cons p rest ih =>
    simp only [MultiGraph.addEdges, List.foldl_cons] at *
    rw [ih]
    simp only [List.map_cons]
    rw [← Multiset.cons_coe]
    ext x
    simp only [Multiset.count_cons, Multiset.count_add]
    omega

theorem componentSelfLoops_eq_of_internal {graphs : List Graph} {C : Finset ℕ}
    (hint : ∀ m ∈ componentNeighbors graphs C, m ∈ C) :
    componentSelfLoops graphs C = componentNeighbors graphs C := by
  have hdistrib : componentSelfLoops graphs C =
      (componentNeighbors graphs C).filter (fun m => decide (m ∈ C)) := by
    unfold componentSelfLoops componentNeighbors
    rw [List.filter_flatMap]
    congr 1
    funext n
    rw [List.filter_flatMap]
  rw [hdistrib]
  exact List.filter_eq_self.mpr (fun a ha => decide_eq_true (hint a ha))

theorem collapseStep_ok_edges_internal {graphs : List Graph} {st : CState}
    {i : ℕ} {C : Finset ℕ} {st' : CState}
    (hint : ∀ m ∈ componentNeighbors graphs C, m ∈ C)
    (h : collapseStep graphs st i C = .ok st') :
    st'.1.edges = st.1.edges +
      Multiset.replicate (2 * (componentNeighbors graphs C).length) (i, i) := by
  have hall : ∀ m ∈ componentNeighbors graphs C, updComp st.2.2 C i m = some i := by
    intro m hm
    unfold updComp
    rw [if_pos (hint m hm)]
  simp only [collapseStep] at h
  rw [idsOf_all_some hall] at h
  cases h
  show (((st.1.addNode i).addEdges
      (((componentNeighbors graphs C).map (fun _ => i)).map (fun j => (i, j)))).addEdges
      (List.replicate (componentSelfLoops graphs C).length (i, i))).edges = _
  rw [addEdges_edges, addEdges_edges]
  have h1 : (st.1.addNode i).edges = st.1.edges := rfl
  rw [h1]
  have h2 : ∀ l : List ℕ,
      ((l.map (fun _ => i)).map (fun j => (i, j))).map
        (fun p : ℕ × ℕ => edgeKey p.1 p.2) = List.replicate l.length (i, i) := by
    intro l
    induction l with
    | nil => rfl
    | cons a as ih => simp only [List.map_cons, List.length_cons,
        List.replicate_succ, ih, edgeKey_self]
  have h3 : ((List.replicate (componentSelfLoops graphs C).length (i, i)).map
      (fun p : ℕ × ℕ => edgeKey p.1 p.2)) =
      List.replicate (componentNeighbors graphs C).length (i, i) := by
    rw [List.map_replicate, edgeKey_self, componentSelfLoops_eq_of_internal hint]
  rw [h2, h3, add_assoc, Multiset.coe_replicate, ← Multiset.replicate_add, two_mul]

theorem collapseLoop_ok_edges_internal {graphs : List Graph} :
    ∀ (l : List (Finset ℕ)) (i : ℕ) (st out : CState),
      (∀ C ∈ l, ∀ m ∈ componentNeighbors graphs C, m ∈ C) →
      collapseLoop graphs l i st = .ok out →
      out.1.edges = st.1.edges + selfLoopMultiset graphs l i := by
  intro l
  induction l with
  | nil =>
    intro i st out _ h
    cases h
    simp [selfLoopMultiset]
  | cons C rest ih =>
    intro i st out hint h
    obtain ⟨st', hstep, hloop⟩ := collapseLoop_ok_cons h
    rw [ih (i + 1) st' out (fun D hD => hint D (List.mem_cons_of_mem _ hD)) hloop,
      collapseStep_ok_edges_internal (hint C (List.mem_cons_self _ _)) hstep]
    rw [show selfLoopMultiset graphs (C :: rest) i =
      Multiset.replicate (2 * (componentNeighbors graphs C).length) (i, i) +
        selfLoopMultiset graphs rest (i + 1) from rfl, add_assoc]

theorem count_selfLoopMultiset_lt {graphs : List Graph} :
    ∀ (l : List (Finset ℕ)) (i j : ℕ), j < i →
      Multiset.count (j, j) (selfLoopMultiset graphs l i) = 0 := by
  intro l
  induction l with
  | nil =>
    intro i j _
    rfl
  | cons C rest ih =>
    intro i j hj
    unfold selfLoopMultiset
    rw [Multiset.count_add, Multiset.count_replicate,
      if_neg (by simp [Prod.ext_iff]; omega), ih (i + 1) j (by omega)]

theorem count_selfLoopMultiset_offdiag {graphs : List Graph} :
    ∀ (l : List (Finset ℕ)) (i : ℕ) (p : ℕ × ℕ), p.1 ≠ p.2 →
      Multiset.count p (selfLoopMultiset graphs l i) = 0 := by
  intro l
  induction l with
  | nil =>
    intro i p _
    rfl
  | cons C rest ih =>
    intro i p hp
    unfold selfLoopMultiset
    rw [Multiset.count_add, Multiset.count_replicate,
      if_neg (by simp [Prod.ext_iff]; omega), ih (i + 1) p hp]

theorem count_selfLoopMultiset_at {graphs : List Graph} :
    ∀ (l : List (Finset ℕ)) (i k : ℕ) (hk : k < l.length),
      Multiset.count (i + k, i + k) (selfLoopMultiset graphs l i) =
        2 * (componentNeighbors graphs (l.get ⟨k, hk⟩)).length := by
  intro l
  induction l with
  | nil =>
    intro i k hk
    exact absurd hk (Nat.not_lt_zero k)
  | cons C rest ih =>
    intro i k hk
    cases k with
    | zero =>
      unfold selfLoopMultiset
      rw [Multiset.count_add, Multiset.count_replicate, if_pos (by simp),
        count_selfLoopMultiset_lt rest (i + 1) (i + 0) (by omega)]
      simp
    | succ k' =>
      unfold selfLoopMultiset
      have hk' : k' < rest.length := by simpa using hk
      have harith : i + (k' + 1) = (i + 1) + k' := by omega
      rw [Multiset.count_add, Multiset.count_replicate,
        if_neg (by simp only [Prod.ext_iff]; omega), harith, ih (i + 1) k' hk']
      simp [List.get_cons_succ]

/-!  ## Handshake: neighbour counts vs edge counts inside a component  -/

theorem edgeKey_endpoints (a b : ℕ) :
    ((edgeKey a b).1 = a ∧ (edgeKey a b).2 = b) ∨
      ((edgeKey a b).1 = b ∧ (edgeKey a b).2 = a) := by
  unfold edgeKey
  split_ifs <;> simp

theorem edgeKey_eq_pair {a b x y : ℕ} (hxy : x ≤ y) :
    edgeKey a b = (x, y) ↔ (a = x ∧ b = y) ∨ (a = y ∧ b = x) := by
  unfold edgeKey
  split_ifs <;> simp [Prod.ext_iff] <;> omega

theorem handshake {g : Graph} {C : Finset ℕ} (hwf : g.wf)
    (hint : ∀ n ∈ C, g.nbrs n ⊆ C) :
    ∑ n ∈ C, (g.nbrs n).card = 2 * dCount g C + lCount g C := by
  classical
  have hA : ((C ×ˢ g.nodes).filter (fun p => edgeKey p.1 p.2 ∈ g.edges)).card =
      ∑ n ∈ C, (g.nbrs n).card := by
    have H : ∀ p ∈ (C ×ˢ g.nodes).filter (fun p => edgeKey p.1 p.2 ∈ g.edges),
        p.1 ∈ C := by
      intro p hp
      exact (Finset.mem_product.mp (Finset.mem_filter.mp hp).1).1
    rw [Finset.card_eq_sum_card_fiberwise H]
    apply Finset.sum_congr rfl
    intro n hn
    have hfib : ((C ×ˢ g.nodes).filter
        (fun p => edgeKey p.1 p.2 ∈ g.edges)).filter (fun p => p.1 = n) =
        {n} ×ˢ g.nbrs n := by
      ext p
      simp only [Finset.mem_filter, Finset.mem_product, Finset.mem_singleton,
        Graph.nbrs]
      constructor
      · rintro ⟨⟨⟨h1C, h2n⟩, he⟩, h1n⟩
        subst h1n
        exact ⟨rfl, h2n, he⟩
      · rintro ⟨h1n, h2n, he⟩
        subst h1n
        exact ⟨⟨⟨hn, h2n⟩, he⟩, rfl⟩
    rw [hfib, Finset.card_product, Finset.card_singleton, one_mul]
  have hB : ((C ×ˢ g.nodes).filter (fun p => edgeKey p.1 p.2 ∈ g.edges)).card =
      2 * dCount g C + lCount g C := by
    have H2 : ∀ p ∈ (C ×ˢ g.nodes).filter (fun p => edgeKey p.1 p.2 ∈ g.edges),
        edgeKey p.1 p.2 ∈ g.edges.filter (fun e => e.1 ∈ C ∧ e.2 ∈ C) := by
      intro p hp
      obtain ⟨hprod, hedge⟩ := Finset.mem_filter.mp hp
      obtain ⟨h1C, h2nodes⟩ := Finset.mem_product.mp hprod
      have h2C : p.2 ∈ C :=
        hint p.1 h1C (Finset.mem_filter.mpr ⟨h2nodes, hedge⟩)
      refine Finset.mem_filter.mpr ⟨hedge, ?_⟩
      rcases edgeKey_endpoints p.1 p.2 with ⟨he1, he2⟩ | ⟨he1, he2⟩
      · rw [he1, he2]; exact ⟨h1C, h2C⟩
      · rw [he1, he2]; exact ⟨h2C, h1C⟩
    rw [Finset.card_eq_sum_card_fiberwise H2]
    rw [← Finset.sum_filter_add_sum_filter_not
      (g.edges.filter (fun e => e.1 ∈ C ∧ e.2 ∈ C)) (fun e => e.1 = e.2)]
    have hfiber : ∀ e ∈ g.edges.filter (fun e => e.1 ∈ C ∧ e.2 ∈ C),
        ((C ×ˢ g.nodes).filter (fun p => edgeKey p.1 p.2 ∈ g.edges)).filter
          (fun p => edgeKey p.1 p.2 = e) =
          if e.1 = e.2 then {(e.1, e.2)} else {(e.1, e.2), (e.2, e.1)} := by
      intro e he
      obtain ⟨hedge, h1C, h2C⟩ := Finset.mem_filter.mp he
      obtain ⟨hle, h1nodes, h2nodes⟩ := hwf e hedge
      have hmk : edgeKey e.1 e.2 = e := by
        unfold edgeKey
        rw [if_pos hle]
      have hmk' : edgeKey e.2 e.1 = e := by
        rw [edgeKey_comm]
        exact hmk
      ext p
      simp only [Finset.mem_filter, Finset.mem_product]
      constructor
      · rintro ⟨⟨⟨hp1C, hp2n⟩, hpe⟩, hkey⟩
        have := (edgeKey_eq_pair hle).mp (by rw [hkey])
        rcases this with ⟨ha, hb⟩ | ⟨ha, hb⟩
        · have hp : p = (e.1, e.2) := Prod.ext ha hb
          by_cases hdiag : e.1 = e.2
          · rw [if_pos hdiag]; simp [hp]
          · rw [if_neg hdiag]; simp [hp]
        · have hp : p = (e.2, e.1) := Prod.ext ha hb
          by_cases hdiag : e.1 = e.2
          · rw [if_pos hdiag]
            simp [hp, Prod.ext_iff, hdiag]
          · rw [if_neg hdiag]; simp [hp]
      · intro hp
        by_cases hdiag : e.1 = e.2
        · rw [if_pos hdiag] at hp
          rw [Finset.mem_singleton.mp hp]
          exact ⟨⟨⟨h1C, h2nodes⟩, by rw [hmk]; exact hedge⟩, hmk⟩
        · rw [if_neg hdiag] at hp
          rcases Finset.mem_insert.mp hp with hp | hp
          · rw [hp]
            exact ⟨⟨⟨h1C, h2nodes⟩, by rw [hmk]; exact hedge⟩, hmk⟩
          · rw [Finset.mem_singleton.mp hp]
            exact ⟨⟨⟨h2C, h1nodes⟩, by rw [hmk']; exact hedge⟩, hmk'⟩
    have hdiagsum : ∑ e ∈ (g.edges.filter (fun e => e.1 ∈ C ∧ e.2 ∈ C)).filter
        (fun e => e.1 = e.2),
        (((C ×ˢ g.nodes).filter (fun p => edgeKey p.1 p.2 ∈ g.edges)).filter
          (fun p => edgeKey p.1 p.2 = e)).card = lCount g C := by
      have hcount : ∀ e ∈ (g.edges.filter (fun e => e.1 ∈ C ∧ e.2 ∈ C)).filter
          (fun e => e.1 = e.2),
          (((C ×ˢ g.nodes).filter (fun p => edgeKey p.1 p.2 ∈ g.edges)).filter
            (fun p => edgeKey p.1 p.2 = e)).card = 1 := by
        intro e he
        obtain ⟨he', hdiag⟩ := Finset.mem_filter.mp he
        rw [hfiber e he', if_pos hdiag, Finset.card_singleton]
      rw [Finset.sum_const_nat hcount, mul_one]
      unfold lCount
      congr 1
      rw [Finset.filter_filter]
      apply Finset.filter_congr
      intro e _
      constructor
      · rintro ⟨⟨h1, _⟩, h3⟩
        exact ⟨h3, h1⟩
      · rintro ⟨h1, h2⟩
        exact ⟨⟨h2, h1 ▸ h2⟩, h1⟩
    have hndsum : ∑ e ∈ (g.edges.filter (fun e => e.1 ∈ C ∧ e.2 ∈ C)).filter
        (fun e => ¬ e.1 = e.2),
        (((C ×ˢ g.nodes).filter (fun p => edgeKey p.1 p.2 ∈ g.edges)).filter
          (fun p => edgeKey p.1 p.2 = e)).card = 2 * dCount g C := by
      have hcount : ∀ e ∈ (g.edges.filter (fun e => e.1 ∈ C ∧ e.2 ∈ C)).filter
          (fun e => ¬ e.1 = e.2),
          (((C ×ˢ g.nodes).filter (fun p => edgeKey p.1 p.2 ∈ g.edges)).filter
            (fun p => edgeKey p.1 p.2 = e)).card = 2 := by
        intro e he
        obtain ⟨he', hdiag⟩ := Finset.mem_filter.mp he
        rw [hfiber e he', if_neg hdiag]
        rw [Finset.card_insert_of_not_mem (by simp [Prod.ext_iff]; omega),
          Finset.card_singleton]
      have hset : (g.edges.filter (fun e => e.1 ∈ C ∧ e.2 ∈ C)).filter
          (fun e => ¬ e.1 = e.2) =
          g.edges.filter (fun e => e.1 ≠ e.2 ∧ e.1 ∈ C ∧ e.2 ∈ C) := by
        rw [Finset.filter_filter]
        apply Finset.filter_congr
        intro e _
        constructor
        · rintro ⟨⟨h1, h2⟩, h3⟩
          exact ⟨h3, h1, h2⟩
        · rintro ⟨h1, h2, h3⟩
          exact ⟨⟨h2, h3⟩, h1⟩
      rw [Finset.sum_const_nat hcount, hset]
      unfold dCount
      omega
    rw [hdiagsum, hndsum, Nat.add_comm]
  rw [← hA, hB]

theorem nbrs_eq_empty_of_not_mem {g : Graph} (hwf : g.wf) {n : ℕ}
    (hn : n ∉ g.nodes) : g.nbrs n = ∅ := by
  ext m
  simp only [Graph.nbrs, Finset.mem_filter, Finset.not_mem_empty, iff_false, not_and]
  intro hm he
  rcases edgeKey_endpoints n m with ⟨h1, h2⟩ | ⟨h1, h2⟩
  · exact absurd (h1 ▸ (hwf _ he).2.1) hn
  · exact absurd (h2 ▸ (hwf _ he).2.2) hn

theorem nodeList_toFinset (s : Finset ℕ) : (nodeList s).toFinset = s := by
  ext x
  simp [List.mem_toFinset, mem_nodeList]

theorem flatMap_length_add {L : List ℕ} {f f1 f2 : ℕ → List ℕ}
    (h : ∀ n ∈ L, (f n).length = (f1 n).length + (f2 n).length) :
    (L.flatMap f).length = (L.flatMap f1).length + (L.flatMap f2).length := by
  induction L with
  | nil => rfl
  | cons a as ih =>
    simp only [List.flatMap_cons, List.length_append]
    rw [h a (List.mem_cons_self a as), ih (fun n hn => h n (List.mem_cons_of_mem _ hn))]
    omega

theorem componentNeighbors_cons_length (g : Graph) (gs : List Graph) (C : Finset ℕ) :
    (componentNeighbors (g :: gs) C).length =
      (componentNeighbors [g] C).length + (componentNeighbors gs C).length := by
  unfold componentNeighbors
  apply flatMap_length_add
  intro n _
  by_cases hn : n ∈ g.nodes
  · simp [graphsContaining, List.filter_cons, hn]
  · simp [graphsContaining, List.filter_cons, hn]

theorem componentNeighbors_single_length {g : Graph} (hwf : g.wf) (C : Finset ℕ) :
    (componentNeighbors [g] C).length = ∑ n ∈ C, (g.nbrs n).card := by
  unfold componentNeighbors
  rw [List.length_flatMap]
  have hpt : ∀ n ∈ nodeList C,
      (List.length ∘ (fun n =>
        (graphsContaining [g] n).flatMap (fun g' => nodeNbrList g' n))) n =
        (g.nbrs n).card := by
    intro n _
    by_cases hn : n ∈ g.nodes
    · simp [graphsContaining, List.filter_cons, hn, nodeNbrList, length_nodeList]
    · simp [graphsContaining, List.filter_cons, hn,
        nbrs_eq_empty_of_not_mem hwf hn]
  rw [List.map_congr_left hpt, ← List.sum_toFinset _ (nodup_nodeList C),
    nodeList_toFinset]

theorem componentNeighbors_length_sum {graphs : List Graph} {C : Finset ℕ}
    (hwf : wfGraphs graphs) :
    (componentNeighbors graphs C).length =
      (graphs.map (fun g => ∑ n ∈ C, (g.nbrs n).card)).sum := by
  induction graphs with
  | nil =>
    unfold componentNeighbors graphsContaining
    rw [List.length_flatMap]
    rw [show (List.length ∘ fun (n : ℕ) =>
      (([] : List Graph).filter (fun g => decide (n ∈ g.nodes))).flatMap
        (fun g => nodeNbrList g n)) = fun _ => 0 from rfl]
    simp
  | cons g gs ih =>
    rw [componentNeighbors_cons_length,
      componentNeighbors_single_length (hwf g (List.mem_cons_self g gs)) C,
      ih (fun g' hg' => hwf g' (List.mem_cons_of_mem _ hg'))]
    simp

/-!  ## Claims C2 and C3: multiplicities of collapsed edges  -/

theorem collapse_edges_internal (fuser : Graph) (graphs : List Graph)
    (hok : collapseOk (collapse_fused_graph fuser graphs emptyMG) = true) :
    (okCollapsed (collapse_fused_graph fuser graphs emptyMG)).edges =
      selfLoopMultiset graphs (connComps fuser) 0 := by
  have hint := (collapse_ok_iff_internal fuser graphs emptyMG).mp hok
  cases hres : collapse_fused_graph fuser graphs emptyMG with
  | error e => rw [hres] at hok; cases hok
  | ok out =>
    have hres' : collapseLoop graphs (connComps fuser) 0
        (emptyMG, [], fun _ => none) = .ok out := hres
    have hedges := collapseLoop_ok_edges_internal (connComps fuser) 0 _ out
      (fun C hC => componentNeighbors_subset_iff.mpr (hint C hC)) hres'
    show out.1.edges = _
    rw [hedges]
    show (0 : Multiset (ℕ × ℕ)) + _ = _
    rw [zero_add]

theorem componentNeighbors_length_formula {graphs : List Graph} {C : Finset ℕ}
    (hwf : wfGraphs graphs) (hint : allInternal graphs C) :
    (componentNeighbors graphs C).length =
      (graphs.map (fun g => 2 * dCount g C + lCount g C)).sum := by
  rw [componentNeighbors_length_sum hwf]
  apply congrArg
  apply List.map_congr_left
  intro g hg
  apply handshake (hwf g hg)
  intro n hn
  by_cases hgn : n ∈ g.nodes
  · exact hint n hn g hg hgn
  · rw [nbrs_eq_empty_of_not_mem (hwf g hg) hgn]
    exact Finset.empty_subset C

theorem two_mul_map_sum (l : List Graph) (f : Graph → ℕ) :
    2 * (l.map f).sum = (l.map (fun g => 2 * f g)).sum := by
  induction l with
  | nil => rfl
  | cons a as ih =>
    simp only [List.map_cons, List.sum_cons]
    omega

/-- C2 (amended).  In a successful `collapse_fused_graph` call started on a
fresh multigraph, every contributed collapsed edge is a self-loop: for each
component id `j`, edge `(j,j)` appears with multiplicity
`Σ_g (4·#{edges of g with distinct endpoints, both in component j} +
2·#{self-loops of g at a node of component j})` — four parallel copies per
distinct-endpoint original edge and two per original self-loop, not one per
edge — and no collapsed edge joins two distinct ids.  Whenever some source
neighbour of a component node falls outside that component (in particular
for any original edge joining two different components, or touching a node
absent from the fused graph), the call instead fails with `KeyError` and
returns nothing. -/
theorem c2_edge_contributions :
    (∀ (fuser : Graph) (graphs : List Graph) (j : ℕ)
        (hj : j < (connComps fuser).length),
      wfGraphs graphs →
      collapseOk (collapse_fused_graph fuser graphs emptyMG) = true →
      okEdgeCount (collapse_fused_graph fuser graphs emptyMG) (j, j) =
        (graphs.map (fun g =>
          4 * dCount g ((connComps fuser).get ⟨j, hj⟩) +
            2 * lCount g ((connComps fuser).get ⟨j, hj⟩))).sum) ∧
      (∀ (fuser : Graph) (graphs : List Graph) (p : ℕ × ℕ), p.1 ≠ p.2 →
        collapseOk (collapse_fused_graph fuser graphs emptyMG) = true →
        okEdgeCount (collapse_fused_graph fuser graphs emptyMG) p = 0) ∧
      (∀ (fuser : Graph) (graphs : List Graph) (M : MultiGraph),
        ¬ (∀ C ∈ connComps fuser, allInternal graphs C) →
        collapse_fused_graph fuser graphs M = .error .keyError) := by
  refine ⟨?_, ?_, ?_⟩
  · intro fuser graphs j hj hwf hok
    have hint := (collapse_ok_iff_internal fuser graphs emptyMG).mp hok
    unfold okEdgeCount
    rw [collapse_edges_internal fuser graphs hok]
    have hcount := @count_selfLoopMultiset_at graphs (connComps fuser) 0 j hj
    simp only [Nat.zero_add] at hcount
    rw [hcount]
    have hC : (connComps fuser).get ⟨j, hj⟩ ∈ connComps fuser :=
      List.get_mem _ _ _
    rw [componentNeighbors_length_formula hwf (hint _ hC), two_mul_map_sum]
    apply congrArg
    apply List.map_congr_left
    intro g _
    omega
  · intro fuser graphs p hp hok
    unfold okEdgeCount
    rw [collapse_edges_internal fuser graphs hok]
    exact count_selfLoopMultiset_offdiag (connComps fuser) 0 p hp
  · intro fuser graphs M hnot
    exact (collapse_keyError_iff fuser graphs M).mpr hnot

/-- C2 counterexample to the claim as stated: the fused graph on `{1, 2}`
with analog edge `1–2` and one source graph containing the single edge
`1–2` yields a collapsed multigraph in which that one original edge is
represented by **four** parallel self-loops at component id `0`, not by
exactly one collapsed edge. -/
theorem c2_counterexample :
    okEdgeCount (collapse_fused_graph ⟨{1, 2}, {(1, 1), (2, 2), (1, 2)}⟩
        [⟨{1, 2}, {(1, 2)}⟩] emptyMG) (0, 0) = 4 ∧
      (okCollapsed (collapse_fused_graph ⟨{1, 2}, {(1, 1), (2, 2), (1, 2)}⟩
        [⟨{1, 2}, {(1, 2)}⟩] emptyMG)).edges.card = 4 ∧ (4 : ℕ) ≠ 1 := by
  refine ⟨by decide, by decide, by decide⟩

/-- Concrete instantiation of `c2_edge_contributions`. -/
theorem c2_edge_contributions_witness :
    okEdgeCount (collapse_fused_graph ⟨{1, 2}, {(1, 1), (2, 2), (1, 2)}⟩
        [⟨{1, 2}, {(1, 2)}⟩] emptyMG) (0, 0) =
      ([(⟨{1, 2}, {(1, 2)}⟩ : Graph)].map (fun g =>
        4 * dCount g ((connComps ⟨{1, 2}, {(1, 1), (2, 2), (1, 2)}⟩).get
            ⟨0, by decide⟩) +
          2 * lCount g ((connComps ⟨{1, 2}, {(1, 1), (2, 2), (1, 2)}⟩).get
            ⟨0, by decide⟩))).sum :=
  c2_edge_contributions.1 ⟨{1, 2}, {(1, 1), (2, 2), (1, 2)}⟩
    [⟨{1, 2}, {(1, 2)}⟩] 0 (by decide) (by decide) (by decide)

/-- C3 (amended).  In a successful collapse call the explicit internal tally
equals the full neighbour list (every gathered neighbour is internal), the
neighbour list counts each internal distinct-endpoint original edge twice
(once per endpoint) and each original self-loop once, and the multiplicity
of the collapsed self-loop `(j,j)` is the *sum* of the two passes'
contributions.  Hence an internal original edge with distinct endpoints
surfaces as exactly **four** collapsed self-loops — two via the general
neighbour-mapping pass and two via the internal tally — and an original
self-loop as exactly two (one per pass), not as two in total per edge. -/
theorem c3_internal_edge_two_passes :
    ∀ (fuser : Graph) (graphs : List Graph) (j : ℕ)
      (hj : j < (connComps fuser).length),
      wfGraphs graphs →
      collapseOk (collapse_fused_graph fuser graphs emptyMG) = true →
      componentSelfLoops graphs ((connComps fuser).get ⟨j, hj⟩) =
          componentNeighbors graphs ((connComps fuser).get ⟨j, hj⟩) ∧
        (componentNeighbors graphs ((connComps fuser).get ⟨j, hj⟩)).length =
          (graphs.map (fun g =>
            2 * dCount g ((connComps fuser).get ⟨j, hj⟩) +
              lCount g ((connComps fuser).get ⟨j, hj⟩))).sum ∧
        okEdgeCount (collapse_fused_graph fuser graphs emptyMG) (j, j) =
          (componentNeighbors graphs ((connComps fuser).get ⟨j, hj⟩)).length +
            (componentSelfLoops graphs ((connComps fuser).get ⟨j, hj⟩)).length := by
  intro fuser graphs j hj hwf hok
  have hint := (collapse_ok_iff_internal fuser graphs emptyMG).mp hok
  have hC : (connComps fuser).get ⟨j, hj⟩ ∈ connComps fuser :=
    List.get_mem _ _ _
  have hintC : ∀ m ∈ componentNeighbors graphs ((connComps fuser).get ⟨j, hj⟩),
      m ∈ (connComps fuser).get ⟨j, hj⟩ :=
    componentNeighbors_subset_iff.mpr (hint _ hC)
  have heq := componentSelfLoops_eq_of_internal hintC
  refine ⟨heq, componentNeighbors_length_formula hwf (hint _ hC), ?_⟩
  unfold okEdgeCount
  rw [collapse_edges_internal fuser graphs hok]
  have hcount := @count_selfLoopMultiset_at graphs (connComps fuser) 0 j hj
  simp only [Nat.zero_add] at hcount
  rw [hcount, heq]
  omega

/-- C3 counterexample to the claim as stated: one internal original edge
with distinct endpoints surfaces as four collapsed self-loops, not two. -/
theorem c3_counterexample :
    okEdgeCount (collapse_fused_graph ⟨{3, 4}, {(3, 3), (4, 4), (3, 4)}⟩
        [⟨{3, 4}, {(3, 4)}⟩] emptyMG) (0, 0) = 4 ∧ (4 : ℕ) ≠ 2 := by
  refine ⟨by decide, by decide⟩

/-- Concrete instantiation of `c3_internal_edge_two_passes`. -/
theorem c3_internal_edge_two_passes_witness :
    componentSelfLoops [(⟨{3, 4}, {(3, 4)}⟩ : Graph)]
        ((connComps ⟨{3, 4}, {(3, 3), (4, 4), (3, 4)}⟩).get ⟨0, by decide⟩) =
      componentNeighbors [(⟨{3, 4}, {(3, 4)}⟩ : Graph)]
        ((connComps ⟨{3, 4}, {(3, 3), (4, 4), (3, 4)}⟩).get ⟨0, by decide⟩) ∧
      (componentNeighbors [(⟨{3, 4}, {(3, 4)}⟩ : Graph)]
        ((connComps ⟨{3, 4}, {(3, 3), (4, 4), (3, 4)}⟩).get ⟨0, by decide⟩)).length =
        ([(⟨{3, 4}, {(3, 4)}⟩ : Graph)].map (fun g =>
          2 * dCount g ((connComps ⟨{3, 4}, {(3, 3), (4, 4), (3, 4)}⟩).get
              ⟨0, by decide⟩) +
            lCount g ((connComps ⟨{3, 4}, {(3, 3), (4, 4), (3, 4)}⟩).get
              ⟨0, by decide⟩))).sum ∧
      okEdgeCount (collapse_fused_graph ⟨{3, 4}, {(3, 3), (4, 4), (3, 4)}⟩
          [⟨{3, 4}, {(3, 4)}⟩] emptyMG) (0, 0) =
        (componentNeighbors [(⟨{3, 4}, {(3, 4)}⟩ : Graph)]
          ((connComps ⟨{3, 4}, {(3, 3), (4, 4), (3, 4)}⟩).get ⟨0, by decide⟩)).length +
          (componentSelfLoops [(⟨{3, 4}, {(3, 4)}⟩ : Graph)]
            ((connComps ⟨{3, 4}, {(3, 3), (4, 4), (3, 4)}⟩).get ⟨0, by decide⟩)).length :=
  c3_internal_edge_two_passes ⟨{3, 4}, {(3, 3), (4, 4), (3, 4)}⟩
    [⟨{3, 4}, {(3, 4)}⟩] 0 (by decide) (by decide) (by decide)
